import Mathlib

/-!
Verification development for `utm-gallery-get.py`, a small interactive CLI
that scrapes the UTM VM gallery, downloads a chosen archive and installs it.

Python strings are modelled as lists of characters (`Str`), JSON values as an
inductive type, the filesystem touched by the install pipeline as explicit
state records, and network / user-input effects as oracle functions supplied
to the model.  Library calls (`urllib.parse.urljoin`, `os.path.splitext`,
`plistlib`, ...) are modelled from their documented semantics at the call
sites the script uses.
-/

namespace UtmGallery

/-- Python strings are sequences of characters; we model them as `List Char`. -/
abbrev Str := List Char

/-- Coerce a Lean string literal to the model's string type. -/
def lit (s : String) : Str := s.toList

/-- Model of `str.lower()` (ASCII case folding suffices for the data involved). -/
def lowerStr (s : Str) : Str := s.map Char.toLower

/-- Characters Python's `str.strip()` / `int()` remove: ASCII whitespace. -/
def pyIsSpace (c : Char) : Bool :=
  c = ' ' || c = '\t' || c = '\n' || c = '\r' || c = '\x0b' || c = '\x0c'

/-- Model of `str.strip()` with no argument: trim whitespace on both ends. -/
def stripWs (s : Str) : Str :=
  ((s.dropWhile pyIsSpace).reverse.dropWhile pyIsSpace).reverse

/-- Model of `str.rstrip("/")`: drop trailing slash characters. -/
def rstripSlash (s : Str) : Str :=
  (s.reverse.dropWhile (fun c => c = '/')).reverse

/-- Model of `str.lstrip("/")`: drop leading slash characters. -/
def lstripSlash (s : Str) : Str := s.dropWhile (fun c => c = '/')

/-- Model of `str.strip("/")`: drop slash characters on both ends. -/
def stripSlash (s : Str) : Str := rstripSlash (lstripSlash s)

/-- Model of `needle in haystack` for Python strings: contiguous substring. -/
def strContains (haystack needle : Str) : Bool :=
  haystack.tails.any (fun t => needle.isPrefixOf t)

/-- Model of `s.lower().endswith(".zip")`, the archive-extension test. -/
def endsWithZip (s : Str) : Bool := (lit ".zip").isSuffixOf (lowerStr s)

/-- Model of `s.strip("/").endswith((".html", "/"))`, the fallback page test. -/
def endsWithHtmlOrSlash (s : Str) : Bool :=
  (lit ".html").isSuffixOf s || (lit "/").isSuffixOf s

/-- Characters allowed in a URL scheme by `urllib.parse` (after the first). -/
def isSchemeChar (c : Char) : Bool :=
  c.isAlpha || c.isDigit || c = '+' || c = '-' || c = '.'

/-- Split a URL at its scheme, as `urllib.parse.urlsplit` does: the part
before the first `:` must be a nonempty run of scheme characters starting
with a letter.  Returns the scheme and the remainder after the colon. -/
def splitScheme (s : Str) : Option (Str × Str) :=
  let sch := s.takeWhile (fun c => c ≠ ':')
  if sch.length = s.length then none
  else if (match sch with | c :: _ => c.isAlpha | [] => false)
      && sch.all isSchemeChar then
    some (sch, s.drop (sch.length + 1))
  else none

/-- Model of `urlparse(s).scheme` being nonempty. -/
def hasScheme (s : Str) : Bool := (splitScheme s).isSome

/-- The `scheme://authority` part of an absolute URL, used by the relative
reference resolution of `urljoin` for root-relative links. -/
def urlOrigin (u : Str) : Str :=
  match splitScheme u with
  | some (sch, rest) =>
    if (lit "//").isPrefixOf rest then
      sch ++ lit "://" ++
        (rest.drop 2).takeWhile (fun c => c ≠ '/' ∧ c ≠ '?' ∧ c ≠ '#')
    else sch ++ lit ":"
  | none => []

/-- Model of `urlparse(u).path`: strip scheme, authority, query and fragment. -/
def urlPath (u : Str) : Str :=
  let rest := match splitScheme u with
    | some (_, r) => r
    | none => u
  let afterAuth :=
    if (lit "//").isPrefixOf rest then
      (rest.drop 2).dropWhile (fun c => c ≠ '/' ∧ c ≠ '?' ∧ c ≠ '#')
    else rest
  afterAuth.takeWhile (fun c => c ≠ '?' ∧ c ≠ '#')

/-- Model of `os.path.basename` on a URL path: the part after the last `/`. -/
def basename (p : Str) : Str := (p.reverse.takeWhile (fun c => c ≠ '/')).reverse

/-- Drop query and fragment from a URL, a step of relative resolution. -/
def dropQueryFrag (u : Str) : Str := u.takeWhile (fun c => c ≠ '?' ∧ c ≠ '#')

/-- Everything up to and including the last `/` of a string. -/
def upToLastSlash (s : Str) : Str :=
  (s.reverse.dropWhile (fun c => c ≠ '/')).reverse

/-- Model of `urllib.parse.urljoin base link` for the shapes this script
produces: an absolute link (with scheme) replaces the base, a
scheme-relative `//...` link keeps only the base's scheme, a root-relative
`/...` link keeps the base's origin, and any other nonempty link replaces
the last path segment of the base.  Dot-segment normalization and the
same-scheme special case are not modelled; no call site of the script
depends on them. -/
def urljoin (base link : Str) : Str :=
  if link = [] then base
  else if hasScheme link then link
  else if (lit "//").isPrefixOf link then
    (match splitScheme base with
     | some (sch, _) => sch ++ lit ":" ++ link
     | none => link)
  else if (lit "/").isPrefixOf link then urlOrigin base ++ link
  else upToLastSlash (dropQueryFrag base) ++ link

/-- The constant `GALLERY_BASE` from the script. -/
def GALLERY_BASE : Str := lit "https://mac.getutm.app/gallery/"

/-- JSON values, the shape `json.loads` returns (Python `str`, `int`/`float`,
`bool`, `None`, `list`, `dict`; numbers are modelled as integers, which is all
the traversal ever distinguishes). -/
inductive Json where
  | str : Str → Json
  | num : Int → Json
  | bool : Bool → Json
  | null : Json
  | arr : List Json → Json
  | obj : List (Str × Json) → Json

/-- Python truthiness of a JSON value, as used by `or` chains and `if slug`. -/
def truthy : Json → Bool
  | .str s => !s.isEmpty
  | .num n => !(n == 0)
  | .bool b => b
  | .null => false
  | .arr l => !l.isEmpty
  | .obj l => !l.isEmpty

/-- Model of Python's short-circuit `a or b` on JSON values. -/
def pyOr (a b : Json) : Json := if truthy a then a else b

/-- Model of `node.get(k)` on a parsed JSON object: Python maps a missing key
to `None`.  Parsed JSON objects have distinct keys, so first-match lookup is
exact. -/
def jget (fields : List (Str × Json)) (k : Str) : Json :=
  match fields.find? (fun kv => decide (kv.1 = k)) with
  | some kv => kv.2
  | none => .null

/-- Model of `k in node` for a parsed JSON object. -/
def hasKey (fields : List (Str × Json)) (k : Str) : Bool :=
  (fields.find? (fun kv => decide (kv.1 = k))).isSome

mutual
/-- Model of `gather_zip_links`: collect every string ending in `.zip`
(case-insensitively) anywhere under a JSON value, in traversal order. -/
def gather_zip_links : Json → List Str
  | .str s => if endsWithZip s then [s] else []
  | .arr l => gatherElems l
  | .obj l => gatherValues l
  | _ => []

/-- Recursion of `gather_zip_links` over the items of a JSON array. -/
def gatherElems : List Json → List Str
  | [] => []
  | x :: xs => gather_zip_links x ++ gatherElems xs

/-- Recursion of `gather_zip_links` over `node.values()` of a JSON object. -/
def gatherValues : List (Str × Json) → List Str
  | [] => []
  | kv :: xs => gather_zip_links kv.2 ++ gatherValues xs
end

/-- Gallery entry as assembled by the script: the dict
`(title, page, zips)`.  `title` stays a JSON value because the script
stores whatever truthy value the `title`/`name` field held. -/
structure Item where
  title : Json
  page : Str
  zips : List Str

/-- The mapping `items` built by `visit`, keyed by normalized page URL,
in insertion order (Python dicts preserve insertion order). -/
abbrev ItemMap := List (Str × Item)

/-- Record or merge one discovered entry into the `items` mapping: if the
normalized key exists, append the new links to the existing entry, else
insert a fresh entry at the end. -/
def addItem (items : ItemMap) (key : Str) (title : Json) (page : Str)
    (zips : List Str) : ItemMap :=
  if (items.find? (fun kv => decide (kv.1 = key))).isSome then
    items.map (fun kv =>
      if kv.1 = key then (kv.1, { kv.2 with zips := kv.2.zips ++ zips }) else kv)
  else items ++ [(key, { title := title, page := page, zips := zips })]

/-- The alternate download-reference keys tried when `downloads` yields
nothing. -/
def altDownloadKeys : List Str :=
  [lit "downloadUrl", lit "downloadURL", lit "directLink", lit "file", lit "files"]

/-- The body of `visit` executed at a JSON object node, before recursing
into the node's values: find a page identifier and archive links, and
record them into the mapping when both are present and the resolved page
lies under the gallery base. -/
def objStep (items : ItemMap) (fields : List (Str × Json)) : ItemMap :=
  let slug := pyOr (jget fields (lit "path"))
      (pyOr (jget fields (lit "url")) (jget fields (lit "slug")))
  let zips0 := if hasKey fields (lit "downloads") then
      gather_zip_links (jget fields (lit "downloads"))
    else []
  let zips := if zips0.isEmpty then
      altDownloadKeys.foldl (fun acc k =>
        if hasKey fields k then acc ++ gather_zip_links (jget fields k) else acc) []
    else zips0
  if truthy slug && !zips.isEmpty then
    match slug with
    | .str sl =>
      let page := if (lit "http").isPrefixOf sl then sl
        else urljoin GALLERY_BASE (lstripSlash sl)
      if GALLERY_BASE.isPrefixOf page then
        let title := pyOr (jget fields (lit "title"))
          (pyOr (jget fields (lit "name")) (.str (basename (urlPath page))))
        addItem items (rstripSlash page) title page zips
      else items
    | _ => items
  else items

mutual
/-- Model of the recursive `visit` closure of `extract_from_next_data`:
process an object node, then keep traversing into all children. -/
def visit (items : ItemMap) : Json → ItemMap
  | .obj fields => visitValues (objStep items fields) fields
  | .arr elems => visitElems items elems
  | _ => items

/-- Traversal of `visit` over the items of a JSON array. -/
def visitElems (items : ItemMap) : List Json → ItemMap
  | [] => items
  | x :: xs => visitElems (visit items x) xs

/-- Traversal of `visit` over `node.values()` of a JSON object. -/
def visitValues (items : ItemMap) : List (Str × Json) → ItemMap
  | [] => items
  | kv :: xs => visitValues (visit items kv.2) xs
end

/-- Deduplicate a list of strings preserving first-seen order, with an
accumulator of already-seen values (the `seen` set of the script). -/
def dedupFirstAux : List Str → List Str → List Str
  | [], _ => []
  | x :: xs, seen =>
    if x ∈ seen then dedupFirstAux xs seen
    else x :: dedupFirstAux xs (x :: seen)

/-- Deduplicate preserving first-seen order. -/
def dedupFirst (l : List Str) : List Str := dedupFirstAux l []

/-- Resolve one collected archive link against the entry's page URL:
`urljoin(page, link) if not urlparse(link).scheme else link`. -/
def resolveZip (page link : Str) : Str :=
  if hasScheme link then link else urljoin page link

/-- Final normalization step of `extract_from_next_data`: resolve each
entry's links to absolute URLs and deduplicate them first-seen. -/
def resolveZips (page : Str) (zips : List Str) : List Str :=
  dedupFirst (zips.map (resolveZip page))

/-- The parts of an HTML document the script inspects: the string content of
the `script` element with id `__NEXT_DATA__` when such an element with a
string body exists, the `href` attributes of all anchors with an `href`, in
document order, and the text of `h1`/`h2` heading elements in document
order. -/
structure Html where
  nextDataScript : Option Str
  anchors : List Str
  headings : List Str

/-- Model of `extract_from_next_data`: parse the Next.js hydration blob when
present (via the supplied `json.loads` oracle `parse`), traverse it, and
normalize the collected entries.  A missing script element or unparsable
JSON yields the empty list. -/
def extract_from_next_data (parse : Str → Option Json) (html : Html) :
    List Item :=
  match html.nextDataScript with
  | none => []
  | some s =>
    match parse s with
    | none => []
    | some data =>
      (visit [] data).map (fun kv =>
        { kv.2 with zips := resolveZips kv.2.page kv.2.zips })

/-- One candidate anchor of the fallback scraper: filter on the gallery-path
marker or an `.html`/trailing-slash shape, resolve against the gallery base,
and keep only links under the gallery base. -/
def fallbackLink (href : Str) : Option Str :=
  if strContains href (lit "/gallery/") || endsWithHtmlOrSlash (stripSlash href) then
    let full := urljoin GALLERY_BASE href
    if GALLERY_BASE.isPrefixOf full then some full else none
  else none

/-- Wrap the deduplicated fallback links as entries with the URL as
placeholder title and no archive links. -/
def fallbackItems (links : List Str) : List Item :=
  (dedupFirst links).map (fun l => { title := .str l, page := l, zips := [] })

/-- Model of `find_vm_pages`: prefer structured data; otherwise scrape
anchors, filter, resolve, and deduplicate first-seen. -/
def find_vm_pages (parse : Str → Option Json) (html : Html) : List Item :=
  let items := extract_from_next_data parse html
  if !items.isEmpty then items
  else fallbackItems (html.anchors.filterMap fallbackLink)

/-- Model of `find_zip_for_page`: every anchor whose `href` ends in `.zip`
(case-insensitively), resolved against the page's own URL. -/
def find_zip_for_page (html : Html) (page_url : Str) : List Str :=
  html.anchors.filterMap (fun href =>
    if endsWithZip href then some (urljoin page_url href) else none)

/-- Result of processing one discovered entry inside `main`'s loop:
`none` when the entry is skipped (`continue`). -/
def buildItem1 (pageOf : Str → Option Html) (entry : Item) : Option Item :=
  if entry.page.isEmpty then none
  else
    let page_url := if hasScheme entry.page then entry.page
      else urljoin GALLERY_BASE (lstripSlash entry.page)
    let fetched : Option (List Str × Option Html) :=
      if entry.zips.isEmpty then
        match pageOf page_url with
        | none => none
        | some h => some (find_zip_for_page h page_url, some h)
      else some (entry.zips, none)
    match fetched with
    | none => none
    | some (zips, cached) =>
      if zips.isEmpty then none
      else
        let title :=
          match entry.title with
          | .null =>
            let page_html := match cached with
              | some h => some h
              | none => pageOf page_url
            (match page_html with
             | none => Json.str page_url
             | some h =>
               match h.headings.head? with
               | some t => Json.str (stripWs t)
               | none => Json.str page_url)
          | t => t
        some { title := title, page := page_url, zips := zips }

/-- The discovery loop of `main`: process each entry from `find_vm_pages`,
dropping the ones that are skipped. -/
def buildItems (pageOf : Str → Option Html) (entries : List Item) : List Item :=
  entries.filterMap (buildItem1 pageOf)

/-- The final deduplication of `main`: keep the first entry for each page
URL after stripping a trailing slash, threading the `seen_pages` set. -/
def dedupByPageAux : List Item → List Str → List Item
  | [], _ => []
  | it :: rest, seen =>
    if rstripSlash it.page ∈ seen then dedupByPageAux rest seen
    else it :: dedupByPageAux rest (rstripSlash it.page :: seen)

/-- Deduplicate entries by normalized page URL, keeping first occurrences. -/
def dedupByPage (items : List Item) : List Item := dedupByPageAux items []

/-- Decide whether a character is an ASCII decimal digit. -/
def isDigitCh (c : Char) : Bool := '0' ≤ c && c ≤ '9'

/-- Tail of a valid `int()` literal: digits with single underscores strictly
between digits. -/
def validDigitsTail : Str → Bool
  | [] => true
  | '_' :: d :: rest => isDigitCh d && validDigitsTail rest
  | '_' :: [] => false
  | c :: rest => isDigitCh c && validDigitsTail rest

/-- A valid unsigned decimal `int()` literal. -/
def validDigits : Str → Bool
  | [] => false
  | c :: rest => isDigitCh c && validDigitsTail rest

/-- Numeric value of a digit string, ignoring underscores. -/
def digitsVal (s : Str) : Nat :=
  s.foldl (fun a c => if c = '_' then a else a * 10 + (c.toNat - 48)) 0

/-- Model of Python's `int(s)`: optional surrounding whitespace, optional
sign, then decimal digits (underscores allowed between digits); `none`
models a `ValueError`. -/
def pyInt (s0 : Str) : Option Int :=
  let s := stripWs s0
  match s with
  | '+' :: rest => if validDigits rest then some (digitsVal rest) else none
  | '-' :: rest => if validDigits rest then some (-(digitsVal rest : Int)) else none
  | _ => if validDigits s then some (digitsVal s) else none

/-- Model of Python list indexing `l[k]`: negative indices count from the
end; `none` models an `IndexError`. -/
def pyIndex (l : List Item) (k : Int) : Option Item :=
  if 0 ≤ k then l.get? k.toNat
  else if 0 ≤ (l.length : Int) + k then l.get? ((l.length : Int) + k).toNat
  else none

/-- Outcome of the selection prompt. -/
inductive SelResult where
  | quit
  | chosen (it : Item)
  | err

/-- Model of the selection prompt handling in `main`:
`sel = input().strip().lower()`, quit on `q`, otherwise index
`deduped[int(sel) - 1]`; a failed `int()` or a bad index is an uncaught
exception. -/
def selectionPhase (deduped : List Item) (raw : Str) : SelResult :=
  let sel := lowerStr (stripWs raw)
  if sel = lit "q" then .quit
  else
    match pyInt sel with
    | none => .err
    | some n =>
      match pyIndex deduped (n - 1) with
      | none => .err
      | some c => .chosen c

/-- Decimal digit character. -/
def digitCh : Nat → Char
  | 0 => '0'
  | 1 => '1'
  | 2 => '2'
  | 3 => '3'
  | 4 => '4'
  | 5 => '5'
  | 6 => '6'
  | 7 => '7'
  | 8 => '8'
  | _ => '9'

/-- Decimal digits of a positive number, most significant first; structural
in a fuel argument so the kernel can evaluate it. -/
def natReprAux : Nat → Nat → Str
  | 0, _ => []
  | fuel + 1, n => if n = 0 then [] else natReprAux fuel (n / 10) ++ [digitCh (n % 10)]

/-- Model of Python's decimal formatting of a nonnegative integer. -/
def natRepr (n : Nat) : Str := if n = 0 then lit "0" else natReprAux (n + 1) n

/-- Model of `os.path.splitext`: split off the extension beginning at the
last dot of the last path component, provided some earlier character of that
component is not a dot (so dotfiles have no extension). -/
def splitext (p : Str) : Str × Str :=
  let tail := basename p
  let head := p.take (p.length - tail.length)
  let rtail := tail.reverse
  let rext := rtail.takeWhile (fun c => c ≠ '.')
  if rext.length = tail.length then (p, [])
  else
    let base0 := (rtail.drop (rext.length + 1)).reverse
    if base0.any (fun c => c ≠ '.') then (head ++ base0, '.' :: rext.reverse)
    else (p, [])

/-- Candidate path tried by `unique_path`: `-i` inserted before the
extension. -/
def candPath (base ext : Str) (i : Nat) : Str := base ++ '-' :: (natRepr i ++ ext)

/-- The `while True` search of `unique_path`, made structural with fuel;
`unique_path` supplies enough fuel for the search to always succeed. -/
def uniquePathGo (ex : List Str) (base ext : Str) : Nat → Nat → Str
  | 0, i => candPath base ext i
  | fuel + 1, i =>
    if candPath base ext i ∈ ex then uniquePathGo ex base ext fuel (i + 1)
    else candPath base ext i

/-- Model of `unique_path` over the set `ex` of existing paths: return the
path itself when free, else the first free `-2`, `-3`, ... candidate. -/
def unique_path (ex : List Str) (p : Str) : Str :=
  if p ∈ ex then uniquePathGo ex (splitext p).1 (splitext p).2 (ex.length + 1) 2
  else p

/-- Values of a property-list file (`plistlib`). -/
inductive PVal where
  | str : Str → PVal
  | int : Int → PVal
  | bool : Bool → PVal
  | arr : List PVal → PVal
  | dict : List (Str × PVal) → PVal

/-- A property list: the top-level dictionary of `config.plist`. -/
abbrev Plist := List (Str × PVal)

/-- Model of `data[k] = v` on the loaded plist dictionary. -/
def setKey (d : Plist) (k : Str) (v : PVal) : Plist :=
  if (d.find? (fun kv => decide (kv.1 = k))).isSome then
    d.map (fun kv => if kv.1 = k then (kv.1, v) else kv)
  else d ++ [(k, v)]

/-- Lookup of a key in a plist dictionary. -/
def lookupKey (d : Plist) (k : Str) : Option PVal :=
  (d.find? (fun kv => decide (kv.1 = k))).map (·.2)

/-- The plist key rewritten by `set_vm_display_name`. -/
def nameKey : Str := lit "name"

/-- One installed VM package directory: its path and the contents of its
`config.plist`, `none` when that file is absent. -/
structure Pkg where
  path : Str
  cfg : Option Plist

/-- The filesystem state the install pipeline manipulates: the VM package
directories plus the other existing paths that `unique_path` can collide
with. -/
structure DocsFS where
  pkgs : List Pkg
  others : List Str

/-- All existing paths, as consulted by `os.path.exists`. -/
def allPaths (fs : DocsFS) : List Str := fs.pkgs.map (·.path) ++ fs.others

/-- The `config.plist` of the package at a path: `none` when no package is
there, `some none` when the package lacks the file. -/
def cfgOf (fs : DocsFS) (p : Str) : Option (Option Plist) :=
  (fs.pkgs.find? (fun q => decide (q.path = p))).map (·.cfg)

/-- Per-package action of `set_vm_display_name`: patch the `name` field of
the matching package's `config.plist` when that file exists. -/
def patchPkg (pkg name : Str) (q : Pkg) : Pkg :=
  if q.path = pkg then
    match q.cfg with
    | none => q
    | some d => { q with cfg := some (setKey d nameKey (.str name)) }
  else q

/-- Model of `set_vm_display_name`: rewrite the `name` field of the
package's `config.plist`, silently doing nothing when the file (or the
package) is absent. -/
def set_vm_display_name (fs : DocsFS) (pkg name : Str) : DocsFS :=
  { fs with pkgs := fs.pkgs.map (patchPkg pkg name) }

/-- Per-package action of `shutil.move`: relocate the matching package. -/
def movePkgFun (src dst : Str) (q : Pkg) : Pkg :=
  if q.path = src then { q with path := dst } else q

/-- Model of `shutil.move` on a package directory: the package at `src` now
lives at `dst`. -/
def movePkg (fs : DocsFS) (src dst : Str) : DocsFS :=
  { fs with pkgs := fs.pkgs.map (movePkgFun src dst) }

/-- Model of `shutil.copytree`: duplicate the package at `src` (with its
`config.plist`) at `dst`. -/
def copyPkg (fs : DocsFS) (src dst : Str) : DocsFS :=
  match fs.pkgs.find? (fun q => decide (q.path = src)) with
  | some q => { fs with pkgs := fs.pkgs ++ [{ q with path := dst }] }
  | none => fs

/-- The name given to copy `i` of `copies`:
the bare base for a single install, `base-i` otherwise. -/
def nameFor (base : Str) (copies i : Nat) : Str :=
  if copies = 1 then base else base ++ '-' :: natRepr i

/-- Model of `os.path.join(utm_docs, vm_name + ".utm")` for an absolute
docs directory without a trailing slash. -/
def pkgDest (docs vm_name : Str) : Str := docs ++ '/' :: (vm_name ++ lit ".utm")

/-- One iteration of the install loop of `main` for copy number `i`:
choose the name, find a collision-free destination, move the extracted
package (first copy) or duplicate the first install (later copies), and
patch the display name.  Paths are taken to be absolute, so the
`os.path.abspath` comparison is plain equality. -/
def installStep (docs base : Str) (copies : Nat) (src1 : Str) (fs : DocsFS)
    (acc : List (Str × Str)) (i : Nat) : DocsFS × List (Str × Str) :=
  let vm_name := nameFor base copies i
  let dst := unique_path (allPaths fs) (pkgDest docs vm_name)
  let fs1 :=
    if i = 1 then (if src1 ≠ dst then movePkg fs src1 dst else fs)
    else
      match acc.head? with
      | some fst => copyPkg fs fst.1 dst
      | none => fs
  (set_vm_display_name fs1 dst vm_name, acc ++ [(dst, vm_name)])

/-- Iterate the install loop over the remaining copy numbers. -/
def installGo (docs base : Str) (copies : Nat) (src1 : Str) :
    Nat → Nat → DocsFS → List (Str × Str) → DocsFS × List (Str × Str)
  | 0, _, fs, acc => (fs, acc)
  | rem + 1, i, fs, acc =>
    let st := installStep docs base copies src1 fs acc i
    installGo docs base copies src1 rem (i + 1) st.1 st.2

/-- The install loop of `main`: `for i in range(1, copies + 1)`, yielding
the final filesystem and the `(dst_pkg, vm_name)` install records. -/
def installLoop (docs base : Str) (copies : Nat) (src1 : Str) (fs : DocsFS) :
    DocsFS × List (Str × Str) :=
  installGo docs base copies src1 copies 1 fs []

/-- The command-line arguments the model depends on. -/
structure Args where
  name : Option Str
  copies : Nat
  utm_docs : Str

/-- The outside world of one run: whether the operator interrupts, the
fetched index page, the `json.loads` oracle, the per-page fetch oracle
(`none` models a raised exception), the selection-prompt input, whether the
archive download succeeds, the docs directory before extraction, the new
`.utm` packages extraction creates (newest first, the order of the sorted
before/after diff), and the generated random base name (with timestamp). -/
structure World where
  interrupted : Bool
  index : Option Html
  parse : Str → Option Json
  pageOf : Str → Option Html
  userInput : Str
  downloadOk : Bool
  fsBefore : DocsFS
  extractedPkgs : List Pkg
  randBase : Str

/-- The docs directory after `extract_zip_to`. -/
def fsAfterExtract (w : World) : DocsFS :=
  { pkgs := w.extractedPkgs ++ w.fsBefore.pkgs, others := w.fsBefore.others }

/-- How an execution of `main` ends. -/
inductive MainResult where
  | exited (code : Nat) (msg : Str)
  | finished (installs : List (Str × Str))
  | interrupted
  | exn

/-- The message printed before `sys.exit(1)` when discovery finds nothing. -/
def msgNoVMs : Str := lit "No downloadable VMs found."

/-- The message printed before `sys.exit(1)` when extraction yields no
package. -/
def msgNoPkg : Str := lit "No .utm package found after extraction."

/-- The message printed by the top-level `KeyboardInterrupt` handler. -/
def msgAborted : Str := lit "Aborted."

/-- The base VM name: `--name` verbatim when supplied and nonempty (Python
truthiness), else the generated random name. -/
def chooseBase (argName : Option Str) (randBase : Str) : Str :=
  match argName with
  | some n => if n.isEmpty then randBase else n
  | none => randBase

/-- Model of `main`: discovery, deduplication, selection, download,
extraction and installation, returning how the run ends together with the
final state of the docs directory.  An operator interrupt surfaces as
`MainResult.interrupted` for the top-level handler. -/
def mainModel (args : Args) (w : World) : MainResult × DocsFS :=
  if w.interrupted then (.interrupted, w.fsBefore)
  else
    match w.index with
    | none => (.exn, w.fsBefore)
    | some idx =>
      let items := buildItems w.pageOf (find_vm_pages w.parse idx)
      if items.isEmpty then (.exited 1 msgNoVMs, w.fsBefore)
      else
        let deduped := dedupByPage items
        if deduped.isEmpty then (.exited 1 msgNoVMs, w.fsBefore)
        else
          match selectionPhase deduped w.userInput with
          | .quit => (.exited 0 [], w.fsBefore)
          | .err => (.exn, w.fsBefore)
          | .chosen choice =>
            match choice.zips with
            | [] => (.exn, w.fsBefore)
            | _ :: _ =>
              if !w.downloadOk then (.exn, w.fsBefore)
              else
                let fs1 := fsAfterExtract w
                match w.extractedPkgs.map (·.path) with
                | [] => (.exited 1 msgNoPkg, fs1)
                | src1 :: _ =>
                  let base := chooseBase args.name w.randBase
                  let res := installLoop args.utm_docs base args.copies src1 fs1
                  (.finished res.2, res.1)

/-- Observable end of the whole process, after the `__main__` wrapper. -/
inductive TopOutcome where
  | ended (code : Nat) (msg : Str) (traceback : Bool)
  | crash

/-- Model of the `__main__` wrapper: `KeyboardInterrupt` is caught and turned
into the clean `Aborted.` message (the script then ends normally, exit code
0, printing no stack trace); `sys.exit` codes pass through; any other
exception crashes with a traceback. -/
def topLevel (args : Args) (w : World) : TopOutcome :=
  match (mainModel args w).1 with
  | .interrupted => .ended 0 msgAborted false
  | .exited c m => .ended c m false
  | .finished _ => .ended 0 [] false
  | .exn => .crash

/-- A JSON object node carrying a page identifier and a list of download
links, the shape `visit` recognizes. -/
def zipObj (slug : Str) (links : List Str) : Json :=
  .obj [(lit "path", .str slug), (lit "downloads", .arr (links.map .str))]

/-- Hydration blob with two nested objects whose page identifiers agree
after trailing-slash normalization (`alpine` and `alpine/`), one nested
under a key of the root object, the other deeper inside an array. -/
def mergeBlob (L1 L2 : List Str) : Json :=
  .obj [(lit "a", zipObj (lit "alpine") L1),
        (lit "b", .arr [zipObj (lit "alpine/") L2])]

/-- Index page that only carries a structured-data payload. -/
def scriptOnlyHtml : Html :=
  { nextDataScript := some (lit "payload"), anchors := [], headings := [] }

/-- The normalized page URL of the `alpine` entry. -/
def alpinePage : Str := lit "https://mac.getutm.app/gallery/alpine"

/-- Index page of the anchor-scraping scenario: three links, two of them
gallery pages, one an off-site archive. -/
def c4idx : Html :=
  { nextDataScript := none,
    anchors := [lit "/gallery/a.html", lit "/gallery/b/",
                lit "https://other.example/x.zip"],
    headings := [] }

/-- Index page with a single gallery anchor, used by concrete runs. -/
def oneAnchorIdx : Html :=
  { nextDataScript := none, anchors := [lit "/gallery/vm1/"], headings := [] }

/-- Detail-page oracle of the concrete runs: every page has one archive
link and a first heading. -/
def vmPageOf : Str → Option Html :=
  fun _ => some { nextDataScript := none, anchors := [lit "file.zip"],
                  headings := [lit "Alpine Linux"] }

/-- A `json.loads` oracle for pages without usable structured data. -/
def noParse : Str → Option Json := fun _ => none

/-- The page URL the single-anchor fallback discovers. -/
def vm1Page : Str := lit "https://mac.getutm.app/gallery/vm1/"

/-- Docs directory holding one extracted package with a `config.plist`. -/
def demoFS : DocsFS :=
  { pkgs := [{ path := lit "/docs/src.utm",
               cfg := some [(lit "name", .str (lit "old")),
                            (lit "arch", .str (lit "arm64"))] }],
    others := [] }

/-- A world whose run reaches the prompt via the anchor fallback. -/
def demoWorld : World :=
  { interrupted := false,
    index := some oneAnchorIdx,
    parse := noParse,
    pageOf := vmPageOf,
    userInput := lit "1",
    downloadOk := true,
    fsBefore := { pkgs := [], others := [] },
    extractedPkgs := [],
    randBase := lit "amber-comet-20250101-000000" }

/-- Arguments of the concrete runs. -/
def demoArgs : Args :=
  { name := some (lit "LAB-VICTIM"), copies := 1, utm_docs := lit "/docs" }


/-- The detail page served by `vmPageOf`: one archive anchor, one heading. -/
def vmDetailHtml : Html :=
  { nextDataScript := none, anchors := [lit "file.zip"],
    headings := [lit "Alpine Linux"] }

/-- The single entry the concrete fallback run produces. -/
def vm1Item : Item :=
  { title := .str vm1Page, page := vm1Page,
    zips := [lit "https://mac.getutm.app/gallery/vm1/file.zip"] }

/-- A detail-page oracle whose page has only a padded heading. -/
def headingOnlyPageOf : Str → Option Html :=
  fun _ => some { nextDataScript := none, anchors := [], headings := [lit "  VM Title "] }

/-- An entry with a `None` title, exercising the heading-derivation branch. -/
def nullTitleEntry : Item :=
  { title := Json.null, page := lit "https://x/", zips := [lit "a.zip"] }


/-- World whose index page has no anchors and no structured data. -/
def emptyIdxWorld : World :=
  { demoWorld with index := some { nextDataScript := none, anchors := [], headings := [] } }

/-- World where the operator quits at the prompt. -/
def quitWorld : World := { demoWorld with userInput := lit "q" }

/-- World where the operator interrupts the run. -/
def interruptedWorld : World := { demoWorld with interrupted := true }

/-! Generic list lemmas used by several claims. -/

theorem filterMap_ite_eq {α β : Type} (p : α → Bool) (f : α → β) (l : List α) :
    l.filterMap (fun a => if p a then some (f a) else none)
      = (l.filter p).map f := by
  induction l with
  | nil => rfl
  | cons a t ih =>
    by_cases h : p a <;> simp [List.filterMap_cons, List.filter_cons, h, ih]

theorem map_eq_self_of {α : Type} (f : α → α) (l : List α)
    (h : ∀ x ∈ l, f x = x) : l.map f = l := by
  induction l with
  | nil => rfl
  | cons a t ih =>
    simp only [List.map_cons, h a (by simp)]
    rw [ih (fun x hx => h x (by simp [hx]))]

/-! Lemmas about the traversal `visit` of the structured-data extractor. -/

theorem visit_str (items : ItemMap) (s : Str) : visit items (.str s) = items := rfl

theorem visitElems_strs (items : ItemMap) (L : List Str) :
    visitElems items (L.map .str) = items := by
  induction L generalizing items with
  | nil => rfl
  | cons a t ih => simpa [visitElems, visit_str] using ih items

theorem gatherElems_strs (L : List Str) (h : ∀ s ∈ L, endsWithZip s = true) :
    gatherElems (L.map .str) = L := by
  induction L with
  | nil => rfl
  | cons a t ih =>
    have ha : endsWithZip a = true := h a (by simp)
    have ih2 := ih (fun s hs => h s (by simp [hs]))
    simp [gatherElems, gather_zip_links, ha, ih2]

theorem addItem_nil (k : Str) (tt : Json) (p : Str) (z : List Str) :
    addItem [] k tt p z = [(k, { title := tt, page := p, zips := z })] := rfl

theorem addItem_single (k : Str) (it : Item) (tt : Json) (p : Str) (z : List Str) :
    addItem [(k, it)] k tt p z = [(k, { it with zips := it.zips ++ z })] := by
  simp [addItem]

theorem objStep_alpine1 (items : ItemMap) (a : Str) (t : List Str) (L : List Str)
    (hL : gatherElems (L.map .str) = a :: t) :
    objStep items [(lit "path", .str (lit "alpine")), (lit "downloads", .arr (L.map .str))]
      = addItem items (rstripSlash alpinePage) (.str (lit "alpine")) alpinePage (a :: t) := by
  simp only [objStep]
  rw [show jget [(lit "path", Json.str (lit "alpine")),
        (lit "downloads", Json.arr (L.map .str))] (lit "downloads")
        = Json.arr (L.map .str) from rfl]
  rw [show gather_zip_links (Json.arr (L.map .str)) = gatherElems (L.map .str) from rfl]
  rw [hL]
  rfl

theorem objStep_alpine2 (items : ItemMap) (a : Str) (t : List Str) (L : List Str)
    (hL : gatherElems (L.map .str) = a :: t) :
    objStep items [(lit "path", .str (lit "alpine/")), (lit "downloads", .arr (L.map .str))]
      = addItem items (rstripSlash alpinePage) (.str []) (alpinePage ++ ['/']) (a :: t) := by
  simp only [objStep]
  rw [show jget [(lit "path", Json.str (lit "alpine/")),
        (lit "downloads", Json.arr (L.map .str))] (lit "downloads")
        = Json.arr (L.map .str) from rfl]
  rw [show gather_zip_links (Json.arr (L.map .str)) = gatherElems (L.map .str) from rfl]
  rw [hL]
  rfl

theorem visit_zipObj (items : ItemMap) (slug : Str) (L : List Str) :
    visit items (zipObj slug L)
      = objStep items [(lit "path", .str slug), (lit "downloads", .arr (L.map .str))] := by
  show visitValues (objStep items _) _ = _
  simp [visitValues, visit_str, visit, visitElems_strs]

theorem visit_mergeBlob (L1 L2 : List Str) :
    visit [] (mergeBlob L1 L2)
      = visit (visit [] (zipObj (lit "alpine") L1)) (zipObj (lit "alpine/") L2) := by
  show visitValues
      (objStep [] [(lit "a", zipObj (lit "alpine") L1),
        (lit "b", .arr [zipObj (lit "alpine/") L2])])
      [(lit "a", zipObj (lit "alpine") L1),
        (lit "b", .arr [zipObj (lit "alpine/") L2])] = _
  rfl

/-- C1.  For a structured-data blob with two nested objects whose page
identifiers agree after trailing-slash normalization but whose archive-link
lists differ, extraction produces a single merged entry whose link list is
the concatenation of both objects' links, resolved to absolute URLs and
deduplicated in first-seen order. -/
theorem C1_structured_merge_dedup (L1 L2 : List Str) (h1 : L1 ≠ []) (h2 : L2 ≠ [])
    (hz1 : ∀ s ∈ L1, endsWithZip s = true) (hz2 : ∀ s ∈ L2, endsWithZip s = true) :
    extract_from_next_data (fun _ => some (mergeBlob L1 L2)) scriptOnlyHtml
      = [{ title := .str (lit "alpine"), page := alpinePage,
           zips := dedupFirst ((L1 ++ L2).map (resolveZip alpinePage)) }] := by
  obtain ⟨a1, t1, rfl⟩ := List.exists_cons_of_ne_nil h1
  obtain ⟨a2, t2, rfl⟩ := List.exists_cons_of_ne_nil h2
  have G1 := gatherElems_strs _ hz1
  have G2 := gatherElems_strs _ hz2
  show (visit [] (mergeBlob _ _)).map _ = _
  rw [visit_mergeBlob, visit_zipObj ([]) (lit "alpine") (a1 :: t1),
    objStep_alpine1 _ _ _ _ G1, addItem_nil, visit_zipObj,
    objStep_alpine2 _ _ _ _ G2, addItem_single]
  rfl

/-- Witness for C1 at concrete link lists: the merged entry holds all three
distinct resolved links, in first-seen order. -/
theorem C1_structured_merge_dedup_witness :
    extract_from_next_data
        (fun _ => some (mergeBlob [lit "a.zip", lit "b.zip"] [lit "b.zip", lit "c.zip"]))
        scriptOnlyHtml
      = [{ title := .str (lit "alpine"), page := alpinePage,
           zips := [lit "https://mac.getutm.app/gallery/a.zip",
                    lit "https://mac.getutm.app/gallery/b.zip",
                    lit "https://mac.getutm.app/gallery/c.zip"] }] :=
  C1_structured_merge_dedup [lit "a.zip", lit "b.zip"] [lit "b.zip", lit "c.zip"]
    (by decide) (by decide) (by decide) (by decide)

/-- C3.  An HTML input without the `__NEXT_DATA__` script element, and an
input whose script payload fails to parse as JSON, both make structured
extraction return the empty list (total, no exception), so malformed JSON
is indistinguishable from absent data. -/
theorem C3_missing_or_malformed_next_data :
    (∀ (parse : Str → Option Json) (html : Html), html.nextDataScript = none →
        extract_from_next_data parse html = []) ∧
    (∀ (parse : Str → Option Json) (html : Html) (s : Str),
        html.nextDataScript = some s → parse s = none →
        extract_from_next_data parse html = []) := by
  constructor
  · intro parse html h
    simp [extract_from_next_data, h]
  · intro parse html s h hp
    simp [extract_from_next_data, h, hp]

/-- Witness for C3: a page with no script element and a page whose payload
the parse oracle rejects both extract to the empty list. -/
theorem C3_missing_or_malformed_next_data_witness :
    extract_from_next_data noParse
        { nextDataScript := none, anchors := [], headings := [] } = [] ∧
    extract_from_next_data noParse
        { nextDataScript := some (lit "not json"), anchors := [], headings := [] } = [] :=
  ⟨C3_missing_or_malformed_next_data.1 noParse _ rfl,
   C3_missing_or_malformed_next_data.2 noParse _ (lit "not json") rfl rfl⟩

/-- C4.  On a page with anchors `/gallery/a.html`, `/gallery/b/` and
`https://other.example/x.zip`, the page-discovery fallback returns exactly
the first two resolved against the gallery base (the off-site archive link
is excluded, and indeed fails the base-URL prefix test), while the per-page
archive-link extractor returns every `.zip`-suffixed anchor resolved
against the page URL, with no domain restriction. -/
theorem C4_anchor_scraper :
    (find_vm_pages noParse c4idx
        = [{ title := .str (lit "https://mac.getutm.app/gallery/a.html"),
             page := lit "https://mac.getutm.app/gallery/a.html", zips := [] },
           { title := .str (lit "https://mac.getutm.app/gallery/b/"),
             page := lit "https://mac.getutm.app/gallery/b/", zips := [] }]
      ∧ GALLERY_BASE.isPrefixOf
          (urljoin GALLERY_BASE (lit "https://other.example/x.zip")) = false)
    ∧ ∀ (html : Html) (page_url : Str),
        find_zip_for_page html page_url
          = (html.anchors.filter endsWithZip).map (urljoin page_url) := by
  refine ⟨⟨by rfl, by decide⟩, ?_⟩
  intro html page_url
  exact filterMap_ite_eq endsWithZip (urljoin page_url) html.anchors

/-! Lemmas for `unique_path`: the search loop and freshness of its result. -/

theorem uniquePathGo_two (ex : List Str) (b e : Str) (m : Nat)
    (h2 : candPath b e 2 ∈ ex) (h3 : candPath b e 3 ∉ ex) :
    uniquePathGo ex b e (m + 2) 2 = candPath b e 3 := by
  simp [uniquePathGo, h2, h3]

/-- C6.  `unique_path` returns a free path unchanged; when the path and its
`-2` candidate both exist but the `-3` candidate is free, it returns the
`-3` candidate.  The function only reads the set of existing paths; it
takes and returns no filesystem state. -/
theorem C6_unique_path_collisions (ex : List Str) (p q : Str)
    (hq : q ∉ ex) (h1 : p ∈ ex)
    (h2 : candPath (splitext p).1 (splitext p).2 2 ∈ ex)
    (h3 : candPath (splitext p).1 (splitext p).2 3 ∉ ex) :
    unique_path ex q = q ∧
    unique_path ex p = candPath (splitext p).1 (splitext p).2 3 := by
  constructor
  · simp [unique_path, hq]
  · obtain ⟨m, hm⟩ : ∃ m, ex.length = m + 1 :=
      ⟨ex.length - 1, by have := List.length_pos.mpr (List.ne_nil_of_mem h1); omega⟩
    simp only [unique_path, h1, if_pos]
    rw [hm]
    exact uniquePathGo_two ex _ _ m h2 h3

/-- Witness for C6: with `/d/a.utm` and `/d/a-2.utm` occupied, requesting
`/d/a.utm` yields `/d/a-3.utm`, while the free `/d/b.utm` is returned
unchanged. -/
theorem C6_unique_path_collisions_witness :
    unique_path [lit "/d/a.utm", lit "/d/a-2.utm"] (lit "/d/b.utm") = lit "/d/b.utm" ∧
    unique_path [lit "/d/a.utm", lit "/d/a-2.utm"] (lit "/d/a.utm") = lit "/d/a-3.utm" :=
  C6_unique_path_collisions [lit "/d/a.utm", lit "/d/a-2.utm"]
    (lit "/d/a.utm") (lit "/d/b.utm") (by decide) (by decide) (by decide) (by decide)

theorem append_singleton_inj {α : Type} {a b : List α} {x y : α}
    (h : a ++ [x] = b ++ [y]) : a = b ∧ x = y := by
  have h2 := congrArg List.reverse h
  simp only [List.reverse_append, List.reverse_cons, List.reverse_nil,
    List.nil_append, List.singleton_append, List.cons.injEq] at h2
  exact ⟨List.reverse_injective (h2.2), h2.1⟩

theorem digitCh_inj : ∀ a < 10, ∀ b < 10, digitCh a = digitCh b → a = b := by decide

theorem natReprAux_fuel (n : Nat) : ∀ f1 f2, n < f1 → n < f2 →
    natReprAux f1 n = natReprAux f2 n := by
  induction n using Nat.strong_induction_on with
  | _ n ih =>
    intro f1 f2 h1 h2
    match f1, f2 with
    | fa + 1, fb + 1 =>
      by_cases hz : n = 0
      · simp [natReprAux, hz]
      · have hdiv : n / 10 < n := Nat.div_lt_self (by omega) (by omega)
        simp only [natReprAux, hz, if_false]
        rw [ih (n / 10) hdiv fa fb (by omega) (by omega)]

theorem natRepr_unfold (n : Nat) (hn : 0 < n) :
    natRepr n = (if n / 10 = 0 then [] else natRepr (n / 10)) ++ [digitCh (n % 10)] := by
  have h1 : natRepr n = natReprAux n (n / 10) ++ [digitCh (n % 10)] := by
    unfold natRepr
    rw [if_neg (by omega)]
    show natReprAux (n + 1) n = _
    match n, hn with
    | m + 1, _ =>
      simp only [natReprAux]
      rw [if_neg (by omega)]
  rw [h1]
  by_cases h : n / 10 = 0
  · rw [if_pos h, h]
    match n, hn with
    | m + 1, _ => rfl
  · rw [if_neg h]
    congr 1
    rw [natReprAux_fuel (n / 10) n (n / 10 + 1) (Nat.div_lt_self (by omega) (by omega)) (by omega)]
    unfold natRepr
    rw [if_neg h]

theorem natRepr_ne_nil (n : Nat) (hn : 0 < n) : natRepr n ≠ [] := by
  rw [natRepr_unfold n hn]
  simp

theorem natRepr_inj (n : Nat) : ∀ m, 0 < n → 0 < m → natRepr n = natRepr m → n = m := by
  induction n using Nat.strong_induction_on with
  | _ n ih =>
    intro m hn hm h
    rw [natRepr_unfold n hn, natRepr_unfold m hm] at h
    obtain ⟨hpre, hdig⟩ := append_singleton_inj h
    have hd : n % 10 = m % 10 :=
      digitCh_inj _ (Nat.mod_lt _ (by omega)) _ (Nat.mod_lt _ (by omega)) hdig
    by_cases h1 : n / 10 = 0 <;> by_cases h2 : m / 10 = 0
    · omega
    · rw [if_pos h1, if_neg h2] at hpre
      exact absurd hpre.symm (natRepr_ne_nil _ (by omega))
    · rw [if_neg h1, if_pos h2] at hpre
      exact absurd hpre (natRepr_ne_nil _ (by omega))
    · rw [if_neg h1, if_neg h2] at hpre
      have := ih (n / 10) (Nat.div_lt_self (by omega) (by omega)) (m / 10) (by omega) (by omega) hpre
      omega

theorem candPath_inj (b e : Str) (i j : Nat) (hi : 0 < i) (hj : 0 < j)
    (h : candPath b e i = candPath b e j) : i = j := by
  unfold candPath at h
  have h1 := List.append_cancel_left h
  injection h1 with _ h2
  have h3 := List.append_cancel_right h2
  exact natRepr_inj i j hi hj h3

theorem go_mem_escape (ex : List Str) (b e : Str) :
    ∀ fuel i, 2 ≤ i →
      (∀ j, 2 ≤ j → j < i → candPath b e j ∈ ex) →
      ex.length + 2 < fuel + i →
      uniquePathGo ex b e fuel i ∉ ex := by
  intro fuel
  induction fuel with
  | zero =>
    intro i h2 hall hlen
    exfalso
    have hnd : ((List.range' 2 (i - 2)).map (candPath b e)).Nodup := by
      refine List.Nodup.map_on ?_ (List.nodup_range' _ _)
      intro x hx y hy hxy
      rw [List.mem_range'] at hx hy
      exact candPath_inj b e x y (by omega) (by omega) hxy
    have hsub : ((List.range' 2 (i - 2)).map (candPath b e)) ⊆ ex := by
      intro x hx
      rw [List.mem_map] at hx
      obtain ⟨j, hj, rfl⟩ := hx
      rw [List.mem_range'] at hj
      exact hall j (by omega) (by omega)
    have hle := (hnd.subperm hsub).length_le
    simp only [List.length_map, List.length_range'] at hle
    omega
  | succ f ih =>
    intro i h2 hall hlen
    rw [uniquePathGo]
    by_cases hc : candPath b e i ∈ ex
    · simp only [hc, if_pos]
      refine ih (i + 1) (by omega) ?_ (by omega)
      intro j hj hji
      by_cases hje : j = i
      · exact hje ▸ hc
      · exact hall j hj (by omega)
    · simp [hc]

theorem unique_path_not_mem (ex : List Str) (p : Str) : unique_path ex p ∉ ex := by
  by_cases h : p ∈ ex
  · simp only [unique_path, h, if_pos]
    exact go_mem_escape ex _ _ (ex.length + 1) 2 (by omega)
      (fun j hj hji => absurd hji (by omega)) (by omega)
  · simp [unique_path, h]



theorem map_congr_mem {α β : Type} (f g : α → β) (l : List α)
    (h : ∀ x ∈ l, f x = g x) : l.map f = l.map g := by
  induction l with
  | nil => rfl
  | cons a t ih =>
    simp only [List.map_cons, h a (by simp)]
    rw [ih (fun x hx => h x (by simp [hx]))]

theorem find?_map_keyfix {α : Type} (f : α → α) (p : α → Bool)
    (hf : ∀ x, p (f x) = p x) (l : List α) :
    (l.map f).find? p = (l.find? p).map f := by
  rw [List.find?_map]
  rw [show p ∘ f = p from funext hf]

theorem lookupKey_setKey_self (d : Plist) (k : Str) (v : PVal) :
    lookupKey (setKey d k v) k = some v := by
  unfold setKey lookupKey
  by_cases hs : (d.find? (fun kv => decide (kv.1 = k))).isSome
  · rw [if_pos hs]
    rw [find?_map_keyfix (fun kv => if kv.1 = k then (kv.1, v) else kv)
      (fun kv => decide (kv.1 = k))
      (fun kv => by by_cases h : kv.1 = k <;> simp [h]) d]
    obtain ⟨kv, hkv⟩ := Option.isSome_iff_exists.mp hs
    rw [hkv]
    have hk : kv.1 = k := by simpa using List.find?_some hkv
    simp [hk]
  · rw [if_neg hs]
    rw [List.find?_append]
    rw [Option.not_isSome_iff_eq_none] at hs
    rw [hs]
    simp

theorem lookupKey_setKey_other (d : Plist) (k k2 : Str) (v : PVal) (h : k2 ≠ k) :
    lookupKey (setKey d k v) k2 = lookupKey d k2 := by
  unfold setKey lookupKey
  by_cases hs : (d.find? (fun kv => decide (kv.1 = k))).isSome
  · rw [if_pos hs]
    rw [find?_map_keyfix (fun kv => if kv.1 = k then (kv.1, v) else kv)
      (fun kv => decide (kv.1 = k2))
      (fun kv => by by_cases hh : kv.1 = k <;> simp [hh]) d]
    cases hfind : d.find? (fun kv => decide (kv.1 = k2)) with
    | none => simp
    | some kv =>
      have hk2 : kv.1 = k2 := by simpa using List.find?_some hfind
      have hne : ¬ (kv.1 = k) := by rw [hk2]; exact h
      simp [hne]
  · rw [if_neg hs]
    rw [List.find?_append]
    cases hfind : d.find? (fun kv => decide (kv.1 = k2)) with
    | none =>
      have hne : ¬ (k = k2) := fun he => h he.symm
      simp [List.find?_cons, hne]
    | some kv => simp

theorem patchPkg_path (pkg nm : Str) (q : Pkg) : (patchPkg pkg nm q).path = q.path := by
  unfold patchPkg
  by_cases h : q.path = pkg
  · cases hc : q.cfg <;> simp [h, hc]
  · simp [h]

theorem paths_set (fs : DocsFS) (pkg nm : Str) :
    (set_vm_display_name fs pkg nm).pkgs.map (fun q => q.path)
      = fs.pkgs.map (fun q => q.path) := by
  unfold set_vm_display_name
  rw [List.map_map]
  exact map_congr_mem _ _ _ (fun q _ => patchPkg_path pkg nm q)

theorem cfgOf_set_self (fs : DocsFS) (pkg nm : Str) :
    cfgOf (set_vm_display_name fs pkg nm) pkg
      = (cfgOf fs pkg).map (Option.map (fun d => setKey d nameKey (.str nm))) := by
  unfold cfgOf set_vm_display_name
  rw [find?_map_keyfix (patchPkg pkg nm) (fun q => decide (q.path = pkg))
    (fun q => by simp [patchPkg_path]) fs.pkgs]
  cases hfind : fs.pkgs.find? (fun q => decide (q.path = pkg)) with
  | none => simp
  | some q =>
    have hp : q.path = pkg := by simpa using List.find?_some hfind
    cases hc : q.cfg <;> simp [patchPkg, hp, hc]

theorem cfgOf_set_other (fs : DocsFS) (pkg nm q : Str) (h : q ≠ pkg) :
    cfgOf (set_vm_display_name fs pkg nm) q = cfgOf fs q := by
  unfold cfgOf set_vm_display_name
  rw [find?_map_keyfix (patchPkg pkg nm) (fun x => decide (x.path = q))
    (fun x => by simp [patchPkg_path]) fs.pkgs]
  cases hfind : fs.pkgs.find? (fun x => decide (x.path = q)) with
  | none => simp
  | some x =>
    have hp : x.path = q := by simpa using List.find?_some hfind
    have hne : ¬ (x.path = pkg) := by rw [hp]; exact h
    simp [patchPkg, hne]

theorem set_noop_of_no_cfg (fs : DocsFS) (pkg nm : Str)
    (hnd : (fs.pkgs.map (fun q => q.path)).Nodup)
    (h : cfgOf fs pkg = none ∨ cfgOf fs pkg = some none) :
    set_vm_display_name fs pkg nm = fs := by
  unfold set_vm_display_name
  have hpkgs : fs.pkgs.map (patchPkg pkg nm) = fs.pkgs := by
    apply map_eq_self_of
    intro x hx
    unfold cfgOf at h
    cases hfind : fs.pkgs.find? (fun q => decide (q.path = pkg)) with
    | none =>
      have hnp := List.find?_eq_none.mp hfind x hx
      unfold patchPkg
      rw [if_neg (by simpa using hnp)]
    | some q0 =>
      rw [hfind] at h
      simp only [Option.map_some'] at h
      rcases h with h | h
      · exact absurd h (by simp)
      · have hc : q0.cfg = none := Option.some.inj h
        by_cases hp : x.path = pkg
        · have hq0p : q0.path = pkg := by simpa using List.find?_some hfind
          have hq0m : q0 ∈ fs.pkgs := List.mem_of_find?_eq_some hfind
          have hxq : x = q0 := List.inj_on_of_nodup_map hnd hx hq0m (by rw [hp, hq0p])
          rw [hxq]
          unfold patchPkg
          rw [hc]
          simp
        · unfold patchPkg
          rw [if_neg hp]
  rw [hpkgs]


/-- C9.  Patching the display name rewrites exactly the `name` field of the
package's `config.plist`: the patched dictionary maps `name` to the new
value and agrees with the old dictionary on every other key, every other
package is untouched, and when the metadata file (or the package) is absent
the operation returns with the filesystem unchanged, creating nothing. -/
theorem C9_plist_patch_frame (fs : DocsFS) (pkg nm : Str)
    (hnd : (fs.pkgs.map (fun q => q.path)).Nodup) :
    (∀ d, cfgOf fs pkg = some (some d) →
      cfgOf (set_vm_display_name fs pkg nm) pkg
          = some (some (setKey d nameKey (.str nm))) ∧
      lookupKey (setKey d nameKey (.str nm)) nameKey = some (.str nm) ∧
      ∀ k2, k2 ≠ nameKey → lookupKey (setKey d nameKey (.str nm)) k2 = lookupKey d k2) ∧
    (∀ q, q ≠ pkg → cfgOf (set_vm_display_name fs pkg nm) q = cfgOf fs q) ∧
    ((cfgOf fs pkg = some none ∨ cfgOf fs pkg = none) →
      set_vm_display_name fs pkg nm = fs) := by
  refine ⟨?_, ?_, ?_⟩
  · intro d hd
    refine ⟨?_, lookupKey_setKey_self d nameKey (.str nm),
      fun k2 hk2 => lookupKey_setKey_other d nameKey k2 (.str nm) hk2⟩
    rw [cfgOf_set_self, hd]
    rfl
  · exact fun q hq => cfgOf_set_other fs pkg nm q hq
  · intro h
    exact set_noop_of_no_cfg fs pkg nm hnd (h.elim Or.inr Or.inl)

/-- Witness for C9 on a concrete one-package filesystem: the `name` field is
rewritten, `arch` is preserved, and a package without `config.plist` is left
alone. -/
theorem C9_plist_patch_frame_witness :
    cfgOf (set_vm_display_name demoFS (lit "/docs/src.utm") (lit "LAB")) (lit "/docs/src.utm")
      = some (some [(lit "name", .str (lit "LAB")), (lit "arch", .str (lit "arm64"))]) ∧
    lookupKey (setKey [(lit "name", .str (lit "old")), (lit "arch", .str (lit "arm64"))]
        nameKey (.str (lit "LAB"))) (lit "arch")
      = lookupKey [(lit "name", .str (lit "old")), (lit "arch", .str (lit "arm64"))] (lit "arch") ∧
    set_vm_display_name { pkgs := [{ path := lit "/p.utm", cfg := none }], others := [] }
        (lit "/p.utm") (lit "LAB")
      = { pkgs := [{ path := lit "/p.utm", cfg := none }], others := [] } :=
  ⟨((C9_plist_patch_frame demoFS (lit "/docs/src.utm") (lit "LAB") (by decide)).1
      [(lit "name", .str (lit "old")), (lit "arch", .str (lit "arm64"))] rfl).1,
   ((C9_plist_patch_frame demoFS (lit "/docs/src.utm") (lit "LAB") (by decide)).1
      [(lit "name", .str (lit "old")), (lit "arch", .str (lit "arm64"))] rfl).2.2
      (lit "arch") (by decide),
   (C9_plist_patch_frame { pkgs := [{ path := lit "/p.utm", cfg := none }], others := [] }
      (lit "/p.utm") (lit "LAB") (by decide)).2.2 (Or.inl rfl)⟩

theorem paths_move (fs : DocsFS) (src dst : Str) :
    (movePkg fs src dst).pkgs.map (fun q => q.path)
      = (fs.pkgs.map (fun q => q.path)).map (fun s => if s = src then dst else s) := by
  unfold movePkg
  rw [List.map_map, List.map_map]
  apply map_congr_mem
  intro q _
  unfold movePkgFun
  by_cases h : q.path = src <;> simp [h]

theorem nodup_subst (l : List Str) (src dst : Str) (hnd : l.Nodup) (hdst : dst ∉ l) :
    (l.map (fun s => if s = src then dst else s)).Nodup := by
  induction l with
  | nil => simp
  | cons a t ih =>
    rw [List.map_cons, List.nodup_cons]
    rw [List.nodup_cons] at hnd
    have hdt : dst ∉ t := fun hh => hdst (by simp [hh])
    have hda : a ≠ dst := fun hh => hdst (by simp [hh])
    refine ⟨?_, ih hnd.2 hdt⟩
    intro hmem
    obtain ⟨b, hb, hfb⟩ := List.mem_map.mp hmem
    by_cases ha : a = src <;> by_cases hbs : b = src
    · exact hnd.1 (ha ▸ hbs ▸ hb)
    · rw [if_pos ha, if_neg hbs] at hfb
      exact hdt (hfb ▸ hb)
    · rw [if_neg ha, if_pos hbs] at hfb
      exact hda hfb.symm
    · rw [if_neg ha, if_neg hbs] at hfb
      exact hnd.1 (hfb ▸ hb)

theorem find?_move_dst (l : List Pkg) (src dst : Str)
    (hdst : ∀ q ∈ l, q.path ≠ dst) :
    (l.map (movePkgFun src dst)).find? (fun q => decide (q.path = dst))
      = (l.find? (fun q => decide (q.path = src))).map (movePkgFun src dst) := by
  induction l with
  | nil => rfl
  | cons a t ih =>
    rw [List.map_cons]
    by_cases h : a.path = src
    · rw [List.find?_cons_of_pos _ (by simp [movePkgFun, h]),
        List.find?_cons_of_pos _ (by simp [h])]
      rfl
    · have hd := hdst a (by simp)
      rw [List.find?_cons_of_neg _ (by simp [movePkgFun, h, hd]),
        List.find?_cons_of_neg _ (by simp [h])]
      exact ih (fun q hq => hdst q (by simp [hq]))

theorem find?_move_other (l : List Pkg) (src dst q : Str) (hq1 : q ≠ src) (hq2 : q ≠ dst) :
    (l.map (movePkgFun src dst)).find? (fun x => decide (x.path = q))
      = l.find? (fun x => decide (x.path = q)) := by
  induction l with
  | nil => rfl
  | cons a t ih =>
    rw [List.map_cons]
    by_cases h : a.path = src
    · rw [List.find?_cons_of_neg _ (by simp [movePkgFun, h]; exact fun hh => hq2 hh.symm),
        List.find?_cons_of_neg _ (by rw [h]; simpa using fun hh => hq1 hh.symm)]
      exact ih
    · rw [show movePkgFun src dst a = a from by simp [movePkgFun, h]]
      by_cases hp : a.path = q
      · rw [List.find?_cons_of_pos _ (by simp [hp]), List.find?_cons_of_pos _ (by simp [hp])]
      · rw [List.find?_cons_of_neg _ (by simp [hp]), List.find?_cons_of_neg _ (by simp [hp])]
        exact ih

theorem cfgOf_move_dst (fs : DocsFS) (src dst : Str)
    (hdst : ∀ q ∈ fs.pkgs, q.path ≠ dst) :
    cfgOf (movePkg fs src dst) dst = cfgOf fs src := by
  unfold cfgOf movePkg
  rw [find?_move_dst fs.pkgs src dst hdst]
  cases hfind : fs.pkgs.find? (fun q => decide (q.path = src)) with
  | none => rfl
  | some q => simp [movePkgFun, (by simpa using List.find?_some hfind : q.path = src)]

theorem cfgOf_move_other (fs : DocsFS) (src dst q : Str) (hq1 : q ≠ src) (hq2 : q ≠ dst) :
    cfgOf (movePkg fs src dst) q = cfgOf fs q := by
  unfold cfgOf movePkg
  rw [find?_move_other fs.pkgs src dst q hq1 hq2]

theorem copyPkg_of_found (fs : DocsFS) (src dst : Str) (q0 : Pkg)
    (h : fs.pkgs.find? (fun q => decide (q.path = src)) = some q0) :
    copyPkg fs src dst = { fs with pkgs := fs.pkgs ++ [{ q0 with path := dst }] } := by
  unfold copyPkg
  rw [h]

theorem cfgOf_copy_dst (fs : DocsFS) (src dst : Str) (q0 : Pkg)
    (hfind : fs.pkgs.find? (fun q => decide (q.path = src)) = some q0)
    (hdst : ∀ q ∈ fs.pkgs, q.path ≠ dst) :
    cfgOf (copyPkg fs src dst) dst = some q0.cfg := by
  rw [copyPkg_of_found fs src dst q0 hfind]
  unfold cfgOf
  simp only
  rw [List.find?_append, List.find?_eq_none.mpr (fun x hx => by simpa using hdst x hx)]
  simp [List.find?_cons]

theorem cfgOf_copy_other (fs : DocsFS) (src dst q : Str) (hq : q ≠ dst) :
    cfgOf (copyPkg fs src dst) q = cfgOf fs q := by
  unfold copyPkg
  cases hfind : fs.pkgs.find? (fun x => decide (x.path = src)) with
  | none => rfl
  | some q0 =>
    unfold cfgOf
    simp only
    rw [List.find?_append]
    cases hf2 : fs.pkgs.find? (fun x => decide (x.path = q)) with
    | none =>
      have hd : decide (dst = q) = false := decide_eq_false (fun hh => hq hh.symm)
      simp [List.find?_cons, hd]
    | some x => simp

theorem paths_copy (fs : DocsFS) (src dst : Str) (q0 : Pkg)
    (hfind : fs.pkgs.find? (fun q => decide (q.path = src)) = some q0) :
    (copyPkg fs src dst).pkgs.map (fun q => q.path)
      = fs.pkgs.map (fun q => q.path) ++ [dst] := by
  rw [copyPkg_of_found fs src dst q0 hfind]
  simp

theorem find?_of_mem_nodup (l : List Pkg) (hnd : (l.map (fun q => q.path)).Nodup)
    (pk : Pkg) (hm : pk ∈ l) :
    l.find? (fun q => decide (q.path = pk.path)) = some pk := by
  induction l with
  | nil => cases hm
  | cons a t ih =>
    rw [List.map_cons, List.nodup_cons] at hnd
    rcases List.mem_cons.mp hm with rfl | hm2
    · rw [List.find?_cons_of_pos _ (by simp)]
    · by_cases hp : a.path = pk.path
      · exact absurd (hp ▸ List.mem_map_of_mem (fun q => q.path) hm2) hnd.1
      · rw [List.find?_cons_of_neg _ (by simpa using hp)]
        exact ih hnd.2 hm2



theorem installStep_eq_copy (docs base : Str) (copies : Nat) (src1 : Str)
    (fs : DocsFS) (a : Str × Str) (t : List (Str × Str)) (i : Nat) (hne1 : ¬ i = 1) :
    installStep docs base copies src1 fs (a :: t) i
      = (set_vm_display_name
           (copyPkg fs a.1 (unique_path (allPaths fs) (pkgDest docs (nameFor base copies i))))
           (unique_path (allPaths fs) (pkgDest docs (nameFor base copies i)))
           (nameFor base copies i),
         (a :: t) ++ [(unique_path (allPaths fs) (pkgDest docs (nameFor base copies i)),
            nameFor base copies i)]) := by
  simp only [installStep]
  rw [if_neg hne1]
  rfl

theorem installStep_eq_move (docs base : Str) (copies : Nat) (src1 : Str)
    (fs : DocsFS) (acc : List (Str × Str))
    (hsd : src1 ≠ unique_path (allPaths fs) (pkgDest docs (nameFor base copies 1))) :
    installStep docs base copies src1 fs acc 1
      = (set_vm_display_name
           (movePkg fs src1 (unique_path (allPaths fs) (pkgDest docs (nameFor base copies 1))))
           (unique_path (allPaths fs) (pkgDest docs (nameFor base copies 1)))
           (nameFor base copies 1),
         acc ++ [(unique_path (allPaths fs) (pkgDest docs (nameFor base copies 1)),
            nameFor base copies 1)]) := by
  simp only [installStep]
  rw [if_pos trivial, if_pos hsd]


theorem mem_paths_of_cfgOf_some (fs : DocsFS) (p : Str) (c : Option Plist)
    (h : cfgOf fs p = some c) : p ∈ fs.pkgs.map (fun q => q.path) := by
  unfold cfgOf at h
  cases hf : fs.pkgs.find? (fun q => decide (q.path = p)) with
  | none => rw [hf] at h; cases h
  | some q =>
    have hp : q.path = p := by simpa using List.find?_some hf
    exact hp ▸ List.mem_map_of_mem _ (List.mem_of_find?_eq_some hf)

theorem not_mem_paths_of_not_mem_allPaths (fs : DocsFS) (x : Str)
    (h : x ∉ allPaths fs) : x ∉ fs.pkgs.map (fun q => q.path) :=
  fun hm => h (by unfold allPaths; exact List.mem_append_left _ hm)

theorem paths_ne_of_not_mem_allPaths (fs : DocsFS) (x : Str)
    (h : x ∉ allPaths fs) : ∀ q ∈ fs.pkgs, q.path ≠ x := by
  intro q hq hh
  exact not_mem_paths_of_not_mem_allPaths fs x h (hh ▸ List.mem_map_of_mem _ hq)

theorem installGo_names (docs base : Str) (copies : Nat) (src1 : Str) :
    ∀ rem i fs acc,
      (installGo docs base copies src1 rem i fs acc).2.map Prod.snd
        = acc.map Prod.snd ++ (List.range' i rem).map (nameFor base copies) := by
  intro rem
  induction rem with
  | zero => intro i fs acc; simp [installGo]
  | succ r ih =>
    intro i fs acc
    rw [show installGo docs base copies src1 (r + 1) i fs acc
        = installGo docs base copies src1 r (i + 1)
            (installStep docs base copies src1 fs acc i).1
            (installStep docs base copies src1 fs acc i).2 from rfl]
    rw [ih (i + 1)]
    rw [show (installStep docs base copies src1 fs acc i).2
        = acc ++ [(unique_path (allPaths fs) (pkgDest docs (nameFor base copies i)),
            nameFor base copies i)] from rfl]
    rw [List.range'_succ]
    simp

theorem installStep_inv (docs base : Str) (copies : Nat) (src1 : Str)
    (fs : DocsFS) (a : Str × Str) (t : List (Str × Str)) (i : Nat) (hi : 2 ≤ i)
    (hnd : (fs.pkgs.map (fun q => q.path)).Nodup)
    (hinv : ∀ pr ∈ a :: t, ∃ d2, cfgOf fs pr.1 = some (some d2) ∧
        lookupKey d2 nameKey = some (.str pr.2)) :
    (((installStep docs base copies src1 fs (a :: t) i).1.pkgs.map (fun q => q.path)).Nodup) ∧
    ((installStep docs base copies src1 fs (a :: t) i).2.head? = some a) ∧
    ∀ pr ∈ (installStep docs base copies src1 fs (a :: t) i).2,
      ∃ d2, cfgOf (installStep docs base copies src1 fs (a :: t) i).1 pr.1 = some (some d2) ∧
        lookupKey d2 nameKey = some (.str pr.2) := by
  have hne1 : ¬ (i = 1) := by omega
  rw [installStep_eq_copy docs base copies src1 fs a t i hne1]
  have hfresh : unique_path (allPaths fs) (pkgDest docs (nameFor base copies i)) ∉ allPaths fs :=
    unique_path_not_mem _ _
  generalize hd : unique_path (allPaths fs) (pkgDest docs (nameFor base copies i)) = dst at *
  generalize hv : nameFor base copies i = vm at *
  have hfreshm : dst ∉ fs.pkgs.map (fun q => q.path) :=
    not_mem_paths_of_not_mem_allPaths fs dst hfresh
  have hfreshp : ∀ q ∈ fs.pkgs, q.path ≠ dst :=
    paths_ne_of_not_mem_allPaths fs dst hfresh
  obtain ⟨d1, hd1, hn1⟩ := hinv a (by simp)
  obtain ⟨q0, hq0, hq0c⟩ : ∃ q0, fs.pkgs.find? (fun q => decide (q.path = a.1)) = some q0
      ∧ q0.cfg = some d1 := by
    unfold cfgOf at hd1
    cases hf : fs.pkgs.find? (fun q => decide (q.path = a.1)) with
    | none => rw [hf] at hd1; cases hd1
    | some q0 =>
      rw [hf] at hd1
      exact ⟨q0, rfl, by simpa using hd1⟩
  have hpaths1 : (copyPkg fs a.1 dst).pkgs.map (fun q => q.path)
      = fs.pkgs.map (fun q => q.path) ++ [dst] := paths_copy fs a.1 dst q0 hq0
  have hcfg1dst : cfgOf (copyPkg fs a.1 dst) dst = some (some d1) := by
    rw [cfgOf_copy_dst fs a.1 dst q0 hq0 hfreshp, hq0c]
  refine ⟨?_, by simp, ?_⟩
  · rw [paths_set, hpaths1]
    simp [List.nodup_append, hnd, hfreshm]
  · intro pr hpr
    rcases List.mem_append.mp hpr with hold | hnew
    · obtain ⟨d2, hd2, hn2⟩ := hinv pr hold
      have hprdst : pr.1 ≠ dst := by
        intro hh
        exact hfreshm (hh ▸ mem_paths_of_cfgOf_some fs pr.1 _ hd2)
      refine ⟨d2, ?_, hn2⟩
      rw [cfgOf_set_other _ _ _ _ hprdst, cfgOf_copy_other _ _ _ _ hprdst, hd2]
    · have hpr2 : pr = (dst, vm) := by simpa using hnew
      subst hpr2
      refine ⟨setKey d1 nameKey (.str vm), ?_, lookupKey_setKey_self d1 nameKey (.str vm)⟩
      rw [cfgOf_set_self, hcfg1dst]
      rfl

theorem installGo_inv (docs base : Str) (copies : Nat) (src1 : Str) :
    ∀ rem i fs (a : Str × Str) (t : List (Str × Str)), 2 ≤ i →
      (fs.pkgs.map (fun q => q.path)).Nodup →
      (∀ pr ∈ a :: t, ∃ d2, cfgOf fs pr.1 = some (some d2) ∧
          lookupKey d2 nameKey = some (.str pr.2)) →
      ∀ pr ∈ (installGo docs base copies src1 rem i fs (a :: t)).2,
        ∃ d2, cfgOf (installGo docs base copies src1 rem i fs (a :: t)).1 pr.1 = some (some d2) ∧
          lookupKey d2 nameKey = some (.str pr.2) := by
  intro rem
  induction rem with
  | zero =>
    intro i fs a t hi hnd hinv
    exact hinv
  | succ r ih =>
    intro i fs a t hi hnd hinv
    obtain ⟨hnd2, hacc2, hinv2⟩ :=
      installStep_inv docs base copies src1 fs a t i hi hnd hinv
    have hshape : ∃ t2, (installStep docs base copies src1 fs (a :: t) i).2 = a :: t2 := by
      cases hc : (installStep docs base copies src1 fs (a :: t) i).2 with
      | nil => rw [hc] at hacc2; cases hacc2
      | cons x y =>
        rw [hc] at hacc2
        simp only [List.head?_cons, Option.some.injEq] at hacc2
        exact ⟨y, by rw [hacc2]⟩
    obtain ⟨t2, ht2⟩ := hshape
    have hgoal := ih (i + 1) (installStep docs base copies src1 fs (a :: t) i).1 a t2
      (by omega) hnd2 (ht2 ▸ hinv2)
    rw [← ht2] at hgoal
    exact hgoal

theorem installStep_one (docs base : Str) (copies : Nat) (src1 : Str)
    (fs : DocsFS) (d : Plist)
    (hnd : (fs.pkgs.map (fun q => q.path)).Nodup)
    (hsrc : ({ path := src1, cfg := some d } : Pkg) ∈ fs.pkgs) :
    (((installStep docs base copies src1 fs [] 1).1.pkgs.map (fun q => q.path)).Nodup) ∧
    ((installStep docs base copies src1 fs [] 1).2
      = [(unique_path (allPaths fs) (pkgDest docs (nameFor base copies 1)),
          nameFor base copies 1)]) ∧
    ∀ pr ∈ (installStep docs base copies src1 fs [] 1).2,
      ∃ d2, cfgOf (installStep docs base copies src1 fs [] 1).1 pr.1 = some (some d2) ∧
        lookupKey d2 nameKey = some (.str pr.2) := by
  have hfresh : unique_path (allPaths fs) (pkgDest docs (nameFor base copies 1)) ∉ allPaths fs :=
    unique_path_not_mem _ _
  have hsrcm : src1 ∈ fs.pkgs.map (fun q => q.path) := List.mem_map_of_mem _ hsrc
  have hsd : src1 ≠ unique_path (allPaths fs) (pkgDest docs (nameFor base copies 1)) :=
    fun hh => (not_mem_paths_of_not_mem_allPaths fs _ hfresh) (hh ▸ hsrcm)
  rw [installStep_eq_move docs base copies src1 fs [] hsd]
  generalize hd : unique_path (allPaths fs) (pkgDest docs (nameFor base copies 1)) = dst at *
  generalize hv : nameFor base copies 1 = vm at *
  have hfreshm : dst ∉ fs.pkgs.map (fun q => q.path) :=
    not_mem_paths_of_not_mem_allPaths fs dst hfresh
  have hfreshp : ∀ q ∈ fs.pkgs, q.path ≠ dst :=
    paths_ne_of_not_mem_allPaths fs dst hfresh
  have hfind : fs.pkgs.find? (fun q => decide (q.path = src1))
      = some { path := src1, cfg := some d } :=
    find?_of_mem_nodup fs.pkgs hnd _ hsrc
  have hcfgsrc : cfgOf fs src1 = some (some d) := by
    unfold cfgOf
    rw [hfind]
    rfl
  have hcfg1dst : cfgOf (movePkg fs src1 dst) dst = some (some d) := by
    rw [cfgOf_move_dst fs src1 dst hfreshp, hcfgsrc]
  refine ⟨?_, rfl, ?_⟩
  · rw [paths_set, paths_move]
    exact nodup_subst _ src1 dst hnd hfreshm
  · intro pr hpr
    have hpr2 : pr = (dst, vm) := by simpa using hpr
    subst hpr2
    refine ⟨setKey d nameKey (.str vm), ?_, lookupKey_setKey_self d nameKey (.str vm)⟩
    rw [cfgOf_set_self, hcfg1dst]
    rfl

/-- C5.  With `--copies N` the single install (N = 1) is named exactly the
base (the `--name` value verbatim when supplied), while for N > 1 the i-th
install is named `base-i` for i in 1..N, all sharing the base; and every
install record's package carries a `config.plist` whose `name` field equals
exactly the recorded VM name. -/
theorem C5_copy_naming_metadata (docs base src1 : Str) (copies : Nat) (fs : DocsFS) (d : Plist)
    (hc : 1 ≤ copies)
    (hnd : (fs.pkgs.map (fun q => q.path)).Nodup)
    (hsrc : ({ path := src1, cfg := some d } : Pkg) ∈ fs.pkgs) :
    ((installLoop docs base copies src1 fs).2.map Prod.snd
        = if copies = 1 then [base]
          else (List.range' 1 copies).map (fun i => base ++ '-' :: natRepr i)) ∧
    ∀ pr ∈ (installLoop docs base copies src1 fs).2,
      ∃ d2, cfgOf (installLoop docs base copies src1 fs).1 pr.1 = some (some d2) ∧
        lookupKey d2 nameKey = some (.str pr.2) := by
  constructor
  · rw [show installLoop docs base copies src1 fs
        = installGo docs base copies src1 copies 1 fs [] from rfl]
    rw [installGo_names]
    by_cases h1 : copies = 1
    · subst h1
      simp [nameFor]
    · rw [if_neg h1]
      simp only [List.map_nil, List.nil_append]
      exact map_congr_mem _ _ _ (fun i _ => by simp [nameFor, h1])
  · obtain ⟨n, rfl⟩ : ∃ n, copies = n + 1 := ⟨copies - 1, by omega⟩
    obtain ⟨hnd1, hacc1, hinv1⟩ := installStep_one docs base (n + 1) src1 fs d hnd hsrc
    intro pr hpr
    have hloop : installLoop docs base (n + 1) src1 fs
        = installGo docs base (n + 1) src1 n 2
            (installStep docs base (n + 1) src1 fs [] 1).1
            (installStep docs base (n + 1) src1 fs [] 1).2 := rfl
    rw [hloop] at hpr ⊢
    rw [hacc1] at hpr ⊢
    exact installGo_inv docs base (n + 1) src1 n 2 _ _ [] (by omega) hnd1
      (by rw [← hacc1]; exact hinv1) pr hpr


/-- Witness for C5: one copy named `LAB-VICTIM` verbatim, and three copies
named `LAB-1`, `LAB-2`, `LAB-3`. -/
theorem C5_copy_naming_metadata_witness :
    (installLoop (lit "/docs") (lit "LAB-VICTIM") 1 (lit "/docs/src.utm") demoFS).2.map Prod.snd
        = [lit "LAB-VICTIM"] ∧
    (installLoop (lit "/docs") (lit "LAB") 3 (lit "/docs/src.utm") demoFS).2.map Prod.snd
        = [lit "LAB-1", lit "LAB-2", lit "LAB-3"] :=
  ⟨(C5_copy_naming_metadata (lit "/docs") (lit "LAB-VICTIM") (lit "/docs/src.utm") 1 demoFS
      [(lit "name", .str (lit "old")), (lit "arch", .str (lit "arm64"))]
      (by decide) (by decide) (List.mem_singleton.mpr rfl)).1,
   (C5_copy_naming_metadata (lit "/docs") (lit "LAB") (lit "/docs/src.utm") 3 demoFS
      [(lit "name", .str (lit "old")), (lit "arch", .str (lit "arm64"))]
      (by decide) (by decide) (List.mem_singleton.mpr rfl)).1⟩



theorem takeWhile_https (u : Str) :
    (lit "https:" ++ u).takeWhile (fun c => decide (c ≠ ':')) = lit "https" := by
  show List.takeWhile _ ('h' :: 't' :: 't' :: 'p' :: 's' :: ':' :: u) = _
  simp only [List.takeWhile_cons]
  norm_num
  rfl

theorem hasScheme_https (u : Str) : hasScheme (lit "https:" ++ u) = true := by
  unfold hasScheme splitScheme
  rw [takeWhile_https]
  rw [if_neg (by simp [lit, List.length_append])]
  rw [if_pos (by decide)]
  rfl

theorem hasScheme_of_base_isPrefixOf (s : Str) (h : GALLERY_BASE.isPrefixOf s = true) :
    hasScheme s = true := by
  obtain ⟨t, rfl⟩ : ∃ t, GALLERY_BASE ++ t = s := List.isPrefixOf_iff_prefix.mp h
  rw [show GALLERY_BASE ++ t = lit "https:" ++ (lit "//mac.getutm.app/gallery/" ++ t) from by
    rw [show GALLERY_BASE = lit "https:" ++ lit "//mac.getutm.app/gallery/" from rfl,
      List.append_assoc]]
  exact hasScheme_https _


theorem addItem_pres (items : ItemMap) (k : Str) (tt : Json) (p : Str) (z : List Str)
    (hp : GALLERY_BASE.isPrefixOf p = true)
    (h : ∀ e ∈ items, GALLERY_BASE.isPrefixOf e.2.page = true) :
    ∀ e ∈ addItem items k tt p z, GALLERY_BASE.isPrefixOf e.2.page = true := by
  intro e he
  unfold addItem at he
  by_cases hf : (items.find? (fun kv => decide (kv.1 = k))).isSome
  · rw [if_pos hf] at he
    obtain ⟨x, hx, hxe⟩ := List.mem_map.mp he
    by_cases hk : x.1 = k
    · rw [if_pos hk] at hxe
      rw [← hxe]
      exact h x hx
    · rw [if_neg hk] at hxe
      rw [← hxe]
      exact h x hx
  · rw [if_neg hf] at he
    rcases List.mem_append.mp he with h1 | h2
    · exact h e h1
    · have he2 : e = (k, { title := tt, page := p, zips := z }) := by simpa using h2
      rw [he2]
      exact hp

theorem objStep_pres (items : ItemMap) (fields : List (Str × Json))
    (h : ∀ e ∈ items, GALLERY_BASE.isPrefixOf e.2.page = true) :
    ∀ e ∈ objStep items fields, GALLERY_BASE.isPrefixOf e.2.page = true := by
  intro e he
  simp only [objStep] at he
  repeat' split at he
  all_goals first
  | exact h e he
  | exact addItem_pres _ _ _ _ _ (by assumption) h e he

mutual
theorem visit_pres (items : ItemMap) (node : Json)
    (h : ∀ e ∈ items, GALLERY_BASE.isPrefixOf e.2.page = true) :
    ∀ e ∈ visit items node, GALLERY_BASE.isPrefixOf e.2.page = true :=
  match node with
  | .obj fields => visitValues_pres (objStep items fields) fields (objStep_pres items fields h)
  | .arr elems => visitElems_pres items elems h
  | .str _ => h
  | .num _ => h
  | .bool _ => h
  | .null => h

theorem visitElems_pres (items : ItemMap) (l : List Json)
    (h : ∀ e ∈ items, GALLERY_BASE.isPrefixOf e.2.page = true) :
    ∀ e ∈ visitElems items l, GALLERY_BASE.isPrefixOf e.2.page = true :=
  match l with
  | [] => h
  | x :: xs => visitElems_pres (visit items x) xs (visit_pres items x h)

theorem visitValues_pres (items : ItemMap) (l : List (Str × Json))
    (h : ∀ e ∈ items, GALLERY_BASE.isPrefixOf e.2.page = true) :
    ∀ e ∈ visitValues items l, GALLERY_BASE.isPrefixOf e.2.page = true :=
  match l with
  | [] => h
  | kv :: xs => visitValues_pres (visit items kv.2) xs (visit_pres items kv.2 h)
end

theorem extract_pres (parse : Str → Option Json) (html : Html) :
    ∀ it ∈ extract_from_next_data parse html, GALLERY_BASE.isPrefixOf it.page = true := by
  intro it hit
  unfold extract_from_next_data at hit
  split at hit
  · cases hit
  · split at hit
    · cases hit
    · obtain ⟨kv, hkv, hkve⟩ := List.mem_map.mp hit
      rw [← hkve]
      exact visit_pres [] _ (by intro e he; cases he) kv hkv

theorem dedupFirstAux_sub : ∀ (l seen : List Str) (x : Str),
    x ∈ dedupFirstAux l seen → x ∈ l := by
  intro l
  induction l with
  | nil => intro seen x hx; cases hx
  | cons a t ih =>
    intro seen x hx
    unfold dedupFirstAux at hx
    split at hx
    · exact List.mem_cons_of_mem _ (ih _ _ hx)
    · rcases List.mem_cons.mp hx with rfl | hx2
      · exact List.mem_cons_self _ _
      · exact List.mem_cons_of_mem _ (ih _ _ hx2)

theorem fallback_pres (anchors : List Str) :
    ∀ it ∈ fallbackItems (anchors.filterMap fallbackLink),
      GALLERY_BASE.isPrefixOf it.page = true := by
  intro it hit
  unfold fallbackItems at hit
  obtain ⟨l, hl, hle⟩ := List.mem_map.mp hit
  have hl2 : l ∈ anchors.filterMap fallbackLink :=
    dedupFirstAux_sub _ _ l hl
  obtain ⟨href, _, hres⟩ := List.mem_filterMap.mp hl2
  simp only [fallbackLink] at hres
  rw [← hle]
  split at hres
  · split at hres
    next hc =>
      have hfull : _ = l := Option.some.inj hres
      rw [← hfull]
      exact hc
    next => cases hres
  · cases hres

theorem find_vm_pages_pres (parse : Str → Option Json) (html : Html) :
    ∀ it ∈ find_vm_pages parse html, GALLERY_BASE.isPrefixOf it.page = true := by
  intro it hit
  simp only [find_vm_pages] at hit
  split at hit
  · exact extract_pres parse html it hit
  · exact fallback_pres html.anchors it hit

theorem buildItem1_page (pageOf : Str → Option Html) (entry it : Item)
    (hpre : GALLERY_BASE.isPrefixOf entry.page = true)
    (h : buildItem1 pageOf entry = some it) :
    it.page = entry.page ∧ (entry.title ≠ Json.null → it.title = entry.title) := by
  have hne : entry.page.isEmpty = false := by
    cases hp : entry.page with
    | nil => rw [hp] at hpre; cases hpre
    | cons a t => rfl
  have hsch : hasScheme entry.page = true := hasScheme_of_base_isPrefixOf _ hpre
  simp only [buildItem1, hne, Bool.false_eq_true, if_false, hsch, if_true] at h
  repeat' split at h
  all_goals first
  | exact Option.noConfusion h
  | (have hit2 := Option.some.inj h
     subst hit2
     constructor
     · rfl
     · intro htne
       first
       | rfl
       | exact absurd (by assumption) htne)


theorem dedupByPageAux_sub : ∀ (l : List Item) (seen : List Str) (x : Item),
    x ∈ dedupByPageAux l seen → x ∈ l := by
  intro l
  induction l with
  | nil => intro seen x hx; cases hx
  | cons a t ih =>
    intro seen x hx
    unfold dedupByPageAux at hx
    split at hx
    · exact List.mem_cons_of_mem _ (ih _ _ hx)
    · rcases List.mem_cons.mp hx with rfl | hx2
      · exact List.mem_cons_self _ _
      · exact List.mem_cons_of_mem _ (ih _ _ hx2)

theorem dedupByPageAux_fresh : ∀ (l : List Item) (seen : List Str) (x : Item),
    x ∈ dedupByPageAux l seen → rstripSlash x.page ∉ seen := by
  intro l
  induction l with
  | nil => intro seen x hx; cases hx
  | cons a t ih =>
    intro seen x hx
    unfold dedupByPageAux at hx
    split at hx
    · exact ih _ _ hx
    · rcases List.mem_cons.mp hx with rfl | hx2
      · assumption
      · intro hs
        exact ih _ _ hx2 (by simp [hs])

theorem dedupByPageAux_pairwise : ∀ (l : List Item) (seen : List Str),
    (dedupByPageAux l seen).Pairwise (fun a b => rstripSlash a.page ≠ rstripSlash b.page) := by
  intro l
  induction l with
  | nil => intro seen; exact List.Pairwise.nil
  | cons a t ih =>
    intro seen
    unfold dedupByPageAux
    split
    · exact ih _
    · refine List.pairwise_cons.mpr ⟨?_, ih _⟩
      intro b hb hab
      exact dedupByPageAux_fresh _ _ b hb (by simp [hab])

/-- C2.  Every entry of the final deduplicated list presented at the
selection prompt has a page URL with the gallery base as a prefix (hence an
absolute URL), and no two entries agree after stripping a trailing slash. -/
theorem C2_final_list_invariant (parse : Str → Option Json)
    (pageOf : Str → Option Html) (idx : Html) :
    (∀ it ∈ dedupByPage (buildItems pageOf (find_vm_pages parse idx)),
        GALLERY_BASE.isPrefixOf it.page = true) ∧
    (dedupByPage (buildItems pageOf (find_vm_pages parse idx))).Pairwise
        (fun a b => rstripSlash a.page ≠ rstripSlash b.page) := by
  constructor
  · intro it hit
    have h1 := dedupByPageAux_sub _ _ it hit
    obtain ⟨entry, hentry, hb⟩ := List.mem_filterMap.mp h1
    have hpre := find_vm_pages_pres parse idx entry hentry
    have hpage := (buildItem1_page pageOf entry it hpre hb).1
    rw [hpage]
    exact hpre
  · exact dedupByPageAux_pairwise _ _

/-- Witness for C2: in the concrete single-anchor run, the one listed entry
has the gallery base as a prefix of its page URL. -/
theorem C2_final_list_invariant_witness :
    GALLERY_BASE.isPrefixOf
      ({ title := .str vm1Page, page := vm1Page,
         zips := [lit "https://mac.getutm.app/gallery/vm1/file.zip"] } : Item).page = true :=
  (C2_final_list_invariant noParse vmPageOf oneAnchorIdx).1 _ (by
    rw [show dedupByPage (buildItems vmPageOf (find_vm_pages noParse oneAnchorIdx))
        = [{ title := .str vm1Page, page := vm1Page,
             zips := [lit "https://mac.getutm.app/gallery/vm1/file.zip"] }] from rfl]
    exact List.mem_singleton.mpr rfl)

theorem fallbackItems_title (links : List Str) :
    ∀ e ∈ fallbackItems links, e.title = .str e.page := by
  intro e he
  obtain ⟨l, _, hle⟩ := List.mem_map.mp he
  rw [← hle]

/-- Counterexample for C8: in a run where the anchor fallback discovers one
page whose fetched detail page has first heading `Alpine Linux`, the final
entry's title is the page URL, not the heading: the URL placeholder counts
as a present title, so the heading derivation never applies to fallback
entries. -/
theorem C8_counterexample :
    (buildItems vmPageOf (find_vm_pages noParse oneAnchorIdx)).map Item.title
        = [Json.str vm1Page] ∧
    vmPageOf vm1Page = some vmDetailHtml ∧
    Json.str vm1Page ≠ Json.str (lit "Alpine Linux") := by
  refine ⟨rfl, rfl, ?_⟩
  intro hc
  rw [Json.str.injEq] at hc
  exact absurd hc (by decide)

/-- C8 (amended).  The heading-derivation branch applies only to entries
whose title is `None`, which no discovery path produces: when structured
extraction is empty, every surviving entry keeps the page URL (the anchor
fallback's placeholder) as its final title, even if the detail page has a
heading; a hypothetical entry with a `None` title would get the fetched
page's first stripped heading, falling back to the page URL when the page
has no heading or the fetch failed. -/
theorem C8_title_fallback_amended :
    (∀ (parse : Str → Option Json) (pageOf : Str → Option Html) (idx : Html),
      extract_from_next_data parse idx = [] →
      ∀ it ∈ buildItems pageOf (find_vm_pages parse idx), it.title = .str it.page) ∧
    (∀ (pageOf : Str → Option Html) (e : Item),
      e.title = Json.null → hasScheme e.page = true → e.page ≠ [] → e.zips ≠ [] →
      buildItem1 pageOf e = some
        { title := (match pageOf e.page with
            | none => Json.str e.page
            | some h => (match h.headings.head? with
              | some t => Json.str (stripWs t)
              | none => Json.str e.page)),
          page := e.page, zips := e.zips }) := by
  constructor
  · intro parse pageOf idx hex it hit
    obtain ⟨entry, hentry, hb⟩ := List.mem_filterMap.mp hit
    have hfb : entry ∈ fallbackItems (idx.anchors.filterMap fallbackLink) := by
      simpa [find_vm_pages, hex] using hentry
    have htitle : entry.title = .str entry.page := fallbackItems_title _ entry hfb
    have hpre : GALLERY_BASE.isPrefixOf entry.page = true :=
      fallback_pres idx.anchors entry hfb
    obtain ⟨hpage, htit⟩ := buildItem1_page pageOf entry it hpre hb
    rw [htit (by rw [htitle]; intro hx; cases hx), htitle, hpage]
  · intro pageOf e ht hs hp hz
    have hne : e.page.isEmpty = false := by
      cases hpp : e.page with
      | nil => exact absurd hpp hp
      | cons a t => rfl
    have hzz : e.zips.isEmpty = false := by
      cases hzp : e.zips with
      | nil => exact absurd hzp hz
      | cons a t => rfl
    simp only [buildItem1, hne, Bool.false_eq_true, if_false, hs, if_true, hzz, ht]

/-- Witness for C8's amended statement: a fallback-style run keeps the URL
title, and a null-titled entry gets the stripped first heading. -/
theorem C8_title_fallback_amended_witness :
    vm1Item.title = Json.str vm1Item.page ∧
    buildItem1 headingOnlyPageOf nullTitleEntry
      = some { title := .str (lit "VM Title"), page := lit "https://x/",
               zips := [lit "a.zip"] } :=
  ⟨C8_title_fallback_amended.1 noParse vmPageOf oneAnchorIdx rfl vm1Item (by
      rw [show buildItems vmPageOf (find_vm_pages noParse oneAnchorIdx) = [vm1Item] from rfl]
      exact List.mem_singleton.mpr rfl),
   C8_title_fallback_amended.2 headingOnlyPageOf nullTitleEntry
     rfl (by decide) (by decide) (by decide)⟩


/-- C10.  With a nonempty list at the prompt, entering `0` does not fail:
`int(sel) - 1` is `-1`, Python's negative indexing selects the last entry;
while any other non-numeric input (except `q`) raises an uncaught
exception. -/
theorem C10_selection_zero (deduped : List Item) (c : Item)
    (hlast : deduped.getLast? = some c) :
    selectionPhase deduped (lit "0") = .chosen c ∧
    (∀ raw, lowerStr (stripWs raw) ≠ lit "q" → pyInt (lowerStr (stripWs raw)) = none →
      selectionPhase deduped raw = .err) := by
  constructor
  · have hne : deduped ≠ [] := by
      intro h
      rw [h] at hlast
      cases hlast
    have hlen : 1 ≤ deduped.length := List.length_pos.mpr hne
    unfold selectionPhase
    rw [if_neg (by decide)]
    rw [show pyInt (lowerStr (stripWs (lit "0"))) = some 0 from rfl]
    have hidx : pyIndex deduped (0 - 1) = some c := by
      unfold pyIndex
      rw [if_neg (by omega), if_pos (by push_cast; omega)]
      rw [show ((deduped.length : Int) + (0 - 1)).toNat = deduped.length - 1 by omega]
      rw [List.get?_eq_getElem?, ← List.getLast?_eq_getElem?]
      exact hlast
    show (match pyIndex deduped (0 - 1) with
      | none => SelResult.err
      | some c2 => SelResult.chosen c2) = SelResult.chosen c
    rw [hidx]
  · intro raw hq hnum
    unfold selectionPhase
    rw [if_neg hq, hnum]

/-- Witness for C10: with two entries listed, input `0` picks the second
(last) one and the input `x` is an error. -/
theorem C10_selection_zero_witness :
    selectionPhase [vm1Item, nullTitleEntry] (lit "0") = .chosen nullTitleEntry ∧
    selectionPhase [vm1Item, nullTitleEntry] (lit "x") = .err :=
  ⟨(C10_selection_zero [vm1Item, nullTitleEntry] nullTitleEntry rfl).1,
   (C10_selection_zero [vm1Item, nullTitleEntry] nullTitleEntry rfl).2
     (lit "x") (by decide) rfl⟩

theorem dedupByPage_ne_nil (l : List Item) (h : l ≠ []) : dedupByPage l ≠ [] := by
  cases l with
  | nil => exact absurd rfl h
  | cons a t =>
    unfold dedupByPage dedupByPageAux
    rw [if_neg (List.not_mem_nil _)]
    simp

/-- C7.  Exit behavior: code 1 with a message when zero entries survive
discovery, and code 1 (with the filesystem exactly as extraction left it,
no rename attempted) when the before/after diff has no `.utm` package;
code 0 when the user enters `q`; and a keyboard interrupt is caught at top
level, ending the process cleanly with `Aborted.` and no traceback. -/
theorem C7_exit_behavior :
    (∀ (args : Args) (w : World) (idx : Html), w.interrupted = false → w.index = some idx →
      buildItems w.pageOf (find_vm_pages w.parse idx) = [] →
      (mainModel args w).1 = .exited 1 msgNoVMs) ∧
    (∀ (args : Args) (w : World) (idx : Html) (c : Item) (z : Str) (zs : List Str),
      w.interrupted = false → w.index = some idx →
      buildItems w.pageOf (find_vm_pages w.parse idx) ≠ [] →
      selectionPhase (dedupByPage (buildItems w.pageOf (find_vm_pages w.parse idx)))
          w.userInput = .chosen c →
      c.zips = z :: zs → w.downloadOk = true → w.extractedPkgs = [] →
      mainModel args w = (.exited 1 msgNoPkg, fsAfterExtract w)) ∧
    (∀ (args : Args) (w : World) (idx : Html),
      w.interrupted = false → w.index = some idx →
      buildItems w.pageOf (find_vm_pages w.parse idx) ≠ [] →
      lowerStr (stripWs w.userInput) = lit "q" →
      (mainModel args w).1 = .exited 0 []) ∧
    (∀ (args : Args) (w : World), w.interrupted = true →
      topLevel args w = .ended 0 msgAborted false) := by
  refine ⟨?_, ?_, ?_, ?_⟩
  · intro args w idx hint hidx hempty
    simp only [mainModel, hint, Bool.false_eq_true, if_false, hidx, hempty, List.isEmpty_nil,
      if_true]
  · intro args w idx c z zs hint hidx hitems hsel hz hdl hext
    have h1 : (buildItems w.pageOf (find_vm_pages w.parse idx)).isEmpty = false := by
      cases hbi : buildItems w.pageOf (find_vm_pages w.parse idx) with
      | nil => exact absurd hbi hitems
      | cons a t => rfl
    have h2 : (dedupByPage (buildItems w.pageOf (find_vm_pages w.parse idx))).isEmpty
        = false := by
      cases hdi : dedupByPage (buildItems w.pageOf (find_vm_pages w.parse idx)) with
      | nil => exact absurd hdi (dedupByPage_ne_nil _ hitems)
      | cons a t => rfl
    simp only [mainModel, hint, Bool.false_eq_true, if_false, hidx, h1, h2, hsel, hz, hdl,
      Bool.not_true, hext, List.map_nil]
  · intro args w idx hint hidx hitems hq
    have h1 : (buildItems w.pageOf (find_vm_pages w.parse idx)).isEmpty = false := by
      cases hbi : buildItems w.pageOf (find_vm_pages w.parse idx) with
      | nil => exact absurd hbi hitems
      | cons a t => rfl
    have h2 : (dedupByPage (buildItems w.pageOf (find_vm_pages w.parse idx))).isEmpty
        = false := by
      cases hdi : dedupByPage (buildItems w.pageOf (find_vm_pages w.parse idx)) with
      | nil => exact absurd hdi (dedupByPage_ne_nil _ hitems)
      | cons a t => rfl
    have hqsel : selectionPhase (dedupByPage (buildItems w.pageOf (find_vm_pages w.parse idx)))
        w.userInput = .quit := by
      unfold selectionPhase
      rw [if_pos hq]
    simp only [mainModel, hint, Bool.false_eq_true, if_false, hidx, h1, h2, hqsel]
  · intro args w hint
    simp only [topLevel, mainModel, hint, if_true]

/-- Witness for C7 at four concrete worlds: empty discovery exits 1, an
empty extraction diff exits 1 with the filesystem untouched, quitting at
the prompt exits 0, and an interrupt ends cleanly with `Aborted.`. -/
theorem C7_exit_behavior_witness :
    (mainModel demoArgs emptyIdxWorld).1 = .exited 1 msgNoVMs ∧
    mainModel demoArgs demoWorld = (.exited 1 msgNoPkg, fsAfterExtract demoWorld) ∧
    (mainModel demoArgs quitWorld).1 = .exited 0 [] ∧
    topLevel demoArgs interruptedWorld = .ended 0 msgAborted false :=
  ⟨C7_exit_behavior.1 demoArgs emptyIdxWorld
      { nextDataScript := none, anchors := [], headings := [] } rfl rfl rfl,
   C7_exit_behavior.2.1 demoArgs demoWorld oneAnchorIdx vm1Item
      (lit "https://mac.getutm.app/gallery/vm1/file.zip") [] rfl rfl
      (by rw [show buildItems demoWorld.pageOf (find_vm_pages demoWorld.parse oneAnchorIdx)
            = [vm1Item] from rfl]
          exact List.cons_ne_nil _ _)
      rfl rfl rfl rfl,
   C7_exit_behavior.2.2.1 demoArgs quitWorld oneAnchorIdx rfl rfl
      (by rw [show buildItems quitWorld.pageOf (find_vm_pages quitWorld.parse oneAnchorIdx)
            = [vm1Item] from rfl]
          exact List.cons_ne_nil _ _)
      rfl,
   C7_exit_behavior.2.2.2 demoArgs interruptedWorld rfl⟩

end UtmGallery
